import Mathlib

/-!
Verification of the Dendrite branching-structure generator.

This file gives a shallow embedding, in Lean 4, of the algorithmic core of
the repository (the L-system grammar engine, the turtle interpreter, the
space-colonization solver and the Jump Flood pass schedule), together with
theorems settling the specification claims about that core.

Modelling conventions, used throughout:

* JavaScript numbers are modelled as rationals (`ℚ`).  Library functions
  whose exact float value is irrelevant to every claim (`Math.sqrt`,
  `Math.cos`, `Math.sin`, `Math.PI`, the engine's seeded `random()` stream)
  are parameters of the embedding (`MathOracle`), so every theorem holds for
  every possible value those functions can take.
* `generateId()` produces fresh random string ids (unique in practice); it
  is modelled by a fresh natural-number counter.
* JS `Map`s (insertion ordered) are modelled as lists in insertion order,
  looked up by the `id` field.
* The dynamically evaluated guard / arithmetic expressions (`new Function`)
  are modelled by oracle functions returning `Option` (with `none` for a
  thrown exception), mirroring the `try`/`catch` structure of the source.
-/

/- The library marks the rational-number operations irreducible; concrete
counterexamples below evaluate the embedded interpreters on rational
inputs, so unfolding is re-enabled for this file. -/
attribute [local semireducible] Rat.add Rat.mul Rat.inv Rat.sub Rat.ofScientific

namespace Spec2Proof

/-! ## Shared vector utilities (src/shared/utils/index.ts) -/

structure Vec2 where
  x : ℚ
  y : ℚ
deriving Repr, DecidableEq

def vec2Add (a b : Vec2) : Vec2 := ⟨a.x + b.x, a.y + b.y⟩

def vec2Sub (a b : Vec2) : Vec2 := ⟨a.x - b.x, a.y - b.y⟩

def vec2Scale (v : Vec2) (s : ℚ) : Vec2 := ⟨v.x * s, v.y * s⟩

/-- `vec2Length`, with `Math.sqrt` supplied as the `sqrtQ` oracle. -/
def vec2Length (sqrtQ : ℚ → ℚ) (v : Vec2) : ℚ := sqrtQ (v.x * v.x + v.y * v.y)

/-- `vec2Normalize`: returns the zero vector when the length is zero,
otherwise divides componentwise by the length. -/
def vec2Normalize (sqrtQ : ℚ → ℚ) (v : Vec2) : Vec2 :=
  let len := vec2Length sqrtQ v
  if len = 0 then ⟨0, 0⟩ else ⟨v.x / len, v.y / len⟩

def vec2Distance (sqrtQ : ℚ → ℚ) (a b : Vec2) : ℚ := vec2Length sqrtQ (vec2Sub b a)

/-- `vec2Rotate` with the cosine and sine of the angle supplied directly. -/
def vec2RotateCS (v : Vec2) (c s : ℚ) : Vec2 :=
  ⟨v.x * c - v.y * s, v.x * s + v.y * c⟩

/-- `degToRad`, with `Math.PI` supplied as a rational parameter (JS `Math.PI`
is itself a rational double). -/
def degToRad (pi deg : ℚ) : ℚ := deg * pi / 180

/-- Bounding boxes.  `createBounds` in the source initialises min/max with
`±Infinity`; that empty sentinel is modelled by `none`, and `expandBounds`
on `none` starts the box at the given point (exactly what the `Math.min` /
`Math.max` against `±Infinity` compute). -/
structure BoundingBox where
  min : Vec2
  max : Vec2
deriving Repr, DecidableEq

abbrev Bounds := Option BoundingBox

def createBounds : Bounds := none

def expandBounds : Bounds → Vec2 → Bounds
  | none, p => some ⟨p, p⟩
  | some b, p =>
      some ⟨⟨min b.min.x p.x, min b.min.y p.y⟩, ⟨max b.max.x p.x, max b.max.y p.y⟩⟩

/-! ## Branch graph data model (src/shared/types/index.ts) -/

structure BranchAttributes where
  thickness : ℚ
  color : ℚ
  age : ℚ
deriving Repr, DecidableEq

structure BranchNode where
  id : ℕ
  position : Vec2
  parent : Option ℕ
  children : List ℕ
  depth : ℕ
  order : ℕ
  attributes : BranchAttributes
deriving Repr, DecidableEq

/-- A branch segment.  The source field `end` is a Lean keyword and is
rendered here as `stop`. -/
structure BranchSegment where
  id : ℕ
  start : ℕ
  stop : ℕ
deriving Repr, DecidableEq

inductive Algorithm where
  | lsystem
  | colonization
deriving Repr, DecidableEq

/-- The branch graph.  `metadata.parameters`/`createdAt` carry no
algorithmic content and only the algorithm tag is kept. -/
structure BranchGraph where
  nodes : List BranchNode
  segments : List BranchSegment
  roots : List ℕ
  bounds : Bounds
  algorithm : Algorithm
deriving Repr, DecidableEq

/-- `nodes.get(i)` on the JS `Map`: first (unique) node with the given id. -/
def getNode (nodes : List BranchNode) (i : ℕ) : Option BranchNode :=
  nodes.find? (fun n => n.id == i)

/-- `nodes.has(i)`. -/
def containsId (nodes : List BranchNode) (i : ℕ) : Bool :=
  nodes.any (fun n => n.id == i)

/-! ## String scanning helpers shared by the tokenizers

Both the grammar engine and the turtle interpreter scan `X(...)` parameter
groups using `input.indexOf(')', i)`. -/

/-- Split a character list at the first `')'`: returns the characters before
it and the characters after it, or `none` when there is no `')'`. -/
def breakOnClose : List Char → Option (List Char × List Char)
  | [] => none
  | c :: cs =>
      if c = ')' then some ([], cs)
      else (breakOnClose cs).map (fun p => (c :: p.1, p.2))

theorem breakOnClose_length {cs ps rest : List Char}
    (h : breakOnClose cs = some (ps, rest)) :
    cs.length = ps.length + 1 + rest.length := by
  induction cs generalizing ps with
  | nil => simp [breakOnClose] at h
  | cons c cs ih =>
      by_cases hc : c = ')'
      · simp [breakOnClose, hc] at h
        simp [h.1, h.2]
        omega
      · simp only [breakOnClose, hc, if_false, Option.map_eq_some'] at h
        obtain ⟨⟨q, r⟩, hq, hqr⟩ := h
        rw [Prod.mk.injEq] at hqr
        obtain ⟨h1, h2⟩ := hqr
        subst h2
        have := ih hq
        simp [← h1, this]
        omega

/-- Value of a digit string, most significant first. -/
def natOfDigits (ds : List Char) : ℕ :=
  ds.foldl (fun a c => a * 10 + (c.toNat - 48)) 0

/-- Model of JS `parseFloat` on the decimal literals this program produces:
skip leading spaces, optional sign, integer digits, optional fractional
digits; any trailing junk is ignored (prefix parse).  `none` models `NaN`
(no digits at all).  Exponent notation and `Infinity` are not modelled; no
claim depends on such literals. -/
def parseFloatQ (cs0 : List Char) : Option ℚ :=
  let cs1 := cs0.dropWhile (fun c => c = ' ')
  let signed : Bool × List Char :=
    match cs1 with
    | '-' :: rest => (true, rest)
    | '+' :: rest => (false, rest)
    | _ => (false, cs1)
  let ip := signed.2.takeWhile (·.isDigit)
  let afterInt := signed.2.dropWhile (·.isDigit)
  let fp :=
    match afterInt with
    | '.' :: rest => rest.takeWhile (·.isDigit)
    | _ => []
  if ip.isEmpty ∧ fp.isEmpty then none
  else
    let v : ℚ := (natOfDigits ip : ℚ) + (natOfDigits fp : ℚ) / (10 ^ fp.length : ℚ)
    some (if signed.1 then -v else v)

/-- JS `String.trim` (only the space character matters for this program). -/
def trimChars (cs : List Char) : List Char :=
  ((cs.dropWhile (· = ' ')).reverse.dropWhile (· = ' ')).reverse

/-- JS `split(',')`. -/
def splitOnComma (cs : List Char) : List (List Char) :=
  let r := cs.foldl
    (fun (acc : List (List Char) × List Char) c =>
      if c = ',' then (acc.1 ++ [acc.2], []) else (acc.1, acc.2 ++ [c]))
    ([], [])
  r.1 ++ [r.2]

/-- JS `Array.join(',')` on already-printed entries. -/
def joinComma (xs : List (List Char)) : List Char :=
  List.intercalate [','] xs

/-! ## Grammar engine: `LSystemParser` -/

/-- A tokenized symbol (`ParsedSymbol` in the source). -/
structure ParsedSymbol where
  symbol : Char
  params : Option (List ℚ)
deriving Repr, DecidableEq

/-- A production rule.  The source's `axiom` field name is a Lean keyword;
the axiom is passed explicitly to `parseLSystem` below. -/
structure ProductionRule where
  predecessor : List Char
  successor : List Char
  probability : Option ℚ
  condition : Option (List Char)
  leftContext : Option (List Char)
  rightContext : Option (List Char)
deriving Repr, DecidableEq

/-- Oracles for the dynamically-evaluated pieces of the grammar engine:
`condEval c ps` models evaluating the guard string `c` (after substituting
the bound parameters `ps`) with `new Function`; `none` models a thrown
exception and `some b` the truthiness of the produced value.  `exprEval`
models `safeMathEval` on a successor arithmetic expression the same way.
`numToStr` models JS number printing, and `rnd` is the engine's `random()`
output stream (indexed by how many draws happened so far). -/
structure EvalOracle where
  condEval : List Char → List ℚ → Option Bool
  exprEval : List Char → List ℚ → Option ℚ
  numToStr : ℚ → List Char
  rnd : ℕ → ℚ

/-- `parseFloat(p.trim())` on each comma-separated entry.  A `NaN` entry
(unparsable literal) is modelled as `0`; no claim depends on the numeric
value of malformed parameter literals. -/
def parseParams (cs : List Char) : List ℚ :=
  (splitOnComma cs).map (fun s => (parseFloatQ (trimChars s)).getD 0)

/-- `LSystemParser.tokenize`.  A symbol followed by `(` takes everything up
to the next `)` as its parameter list (the source uses
`input.indexOf(')', i)`, which equals `i` itself when the symbol is `)` and
then fails the `closeIdx > i` test).  The scan skips past consumed
parameter groups, so the recursion is bounded by an explicit fuel; fuel
equal to the input length (as supplied by `tokenize`) always suffices. -/
def tokenizeF : ℕ → List Char → List ParsedSymbol
  | 0, _ => []
  | _, [] => []
  | fuel + 1, c :: rest =>
      match rest with
      | '(' :: inner =>
          if c = ')' then ⟨c, none⟩ :: tokenizeF fuel rest
          else
            match breakOnClose inner with
            | some (ps, after) => ⟨c, some (parseParams ps)⟩ :: tokenizeF fuel after
            | none => ⟨c, none⟩ :: tokenizeF fuel rest
      | _ => ⟨c, none⟩ :: tokenizeF fuel rest

def tokenize (cs : List Char) : List ParsedSymbol :=
  tokenizeF cs.length cs

/-- `LSystemParser.evaluateCondition`: substitution then guarded `eval`;
a thrown exception (`none`) is caught and treated as `true`. -/
def evaluateCondition (E : EvalOracle) (condition : List Char) (params : List ℚ) : Bool :=
  match E.condEval condition params with
  | some b => b
  | none => true

/-- `rule.predecessor.charAt(0) !== symbol.symbol` (an empty predecessor
gives `charAt(0) === ""`, which never equals a one-character symbol). -/
def predecessorOk (rule : ProductionRule) (sym : ParsedSymbol) : Bool :=
  match rule.predecessor.head? with
  | some p0 => p0 == sym.symbol
  | none => false

/-- The left-context filter.  An empty context string is falsy in JS and
behaves as absent. -/
def leftContextOk (rule : ProductionRule) (left : Option ParsedSymbol) : Bool :=
  match rule.leftContext with
  | some ctx =>
      if ctx.isEmpty then true
      else match left with
           | some l => ctx == [l.symbol]
           | none => false
  | none => true

/-- The right-context filter. -/
def rightContextOk (rule : ProductionRule) (right : Option ParsedSymbol) : Bool :=
  match rule.rightContext with
  | some ctx =>
      if ctx.isEmpty then true
      else match right with
           | some r => ctx == [r.symbol]
           | none => false
  | none => true

/-- The guard filter: only consulted when the rule has a (non-empty,
JS-truthy) condition and the symbol carries parameters. -/
def guardOk (E : EvalOracle) (rule : ProductionRule) (sym : ParsedSymbol) : Bool :=
  match rule.condition, sym.params with
  | some cond, some ps =>
      if cond.isEmpty then true else evaluateCondition E cond ps
  | _, _ => true

/-- The predicate of `this.rules.filter(...)` inside `findReplacement`. -/
def ruleMatches (E : EvalOracle) (rule : ProductionRule) (sym : ParsedSymbol)
    (left right : Option ParsedSymbol) : Bool :=
  predecessorOk rule sym && leftContextOk rule left &&
    rightContextOk rule right && guardOk E rule sym

/-- `LSystemParser.evaluateExpression`: the substituted expression is handed
to `safeMathEval` (the `exprEval` oracle); on a thrown exception the result
falls back to `params[0] || 0`. -/
def evaluateExpression (E : EvalOracle) (expr : List Char) (params : List ℚ) : ℚ :=
  match E.exprEval expr params with
  | some v => v
  | none => params.headD 0

/-- The global regex replace `/([A-Z])\(([^)]+)\)/g` of
`applyParametricRule`: each uppercase letter followed by a parenthesized
non-empty argument list is re-emitted with the argument expression
evaluated. -/
def applyRegexReplaceF (E : EvalOracle) (params : List ℚ) :
    ℕ → List Char → List Char
  | 0, _ => []
  | _, [] => []
  | fuel + 1, c :: rest =>
      if c.isUpper then
        match rest with
        | '(' :: inner =>
            match breakOnClose inner with
            | some (ps, after) =>
                if ps.isEmpty then c :: applyRegexReplaceF E params fuel rest
                else
                  (c :: '(' :: E.numToStr (evaluateExpression E ps params)) ++
                    ')' :: applyRegexReplaceF E params fuel after
            | none => c :: applyRegexReplaceF E params fuel rest
        | _ => c :: applyRegexReplaceF E params fuel rest
      else c :: applyRegexReplaceF E params fuel rest

def applyRegexReplace (E : EvalOracle) (params : List ℚ) (cs : List Char) : List Char :=
  applyRegexReplaceF E params cs.length cs

/-- `LSystemParser.applyParametricRule`. -/
def applyParametricRule (E : EvalOracle) (rule : ProductionRule)
    (params : Option (List ℚ)) : List Char :=
  match params with
  | none => rule.successor
  | some [] => rule.successor
  | some ps => applyRegexReplace E ps rule.successor

/-- The selection loop of `selectStochasticRule` (`rand -= p; if rand <= 0`).
Returns `none` when the list is exhausted without `rand` dropping to 0. -/
def selectLoop (E : EvalOracle) (params : Option (List ℚ)) :
    List ProductionRule → ℚ → Option (List Char)
  | [], _ => none
  | r :: rest, rand =>
      let rand' := rand - r.probability.getD 0
      if rand' ≤ 0 then some (applyParametricRule E r params)
      else selectLoop E params rest rand'

/-- `LSystemParser.selectStochasticRule`; consumes one `random()` draw.
The source indexes `rules[rules.length - 1]` for the fallback; it is only
called with a non-empty list, and the impossible empty case yields `[]`. -/
def selectStochasticRule (E : EvalOracle) (rules : List ProductionRule)
    (params : Option (List ℚ)) (idx : ℕ) : List Char × ℕ :=
  let total := rules.foldl (fun acc r => acc + r.probability.getD 0) 0
  let rand := E.rnd idx * total
  let out :=
    match selectLoop E params rules rand with
    | some s => s
    | none =>
        match rules.getLast? with
        | some r => applyParametricRule E r params
        | none => []
  (out, idx + 1)

/-- `LSystemParser.findReplacement`.  The second component threads the
position in the `random()` stream. -/
def findReplacement (E : EvalOracle) (rules : List ProductionRule)
    (sym : ParsedSymbol) (left right : Option ParsedSymbol) (idx : ℕ) :
    List Char × ℕ :=
  let matchingRules := rules.filter (fun r => ruleMatches E r sym left right)
  match matchingRules with
  | [] =>
      (match sym.params with
       | some ps => sym.symbol :: '(' :: joinComma (ps.map E.numToStr) ++ [')']
       | none => [sym.symbol], idx)
  | r :: _ =>
      if matchingRules.any (fun m => m.probability.isSome) then
        selectStochasticRule E matchingRules sym.params idx
      else
        (applyParametricRule E r sym.params, idx)

/-- The per-symbol loop of `applyRules`, carrying the previous symbol for
left context. -/
def applyRulesAux (E : EvalOracle) (rules : List ProductionRule) :
    Option ParsedSymbol → List ParsedSymbol → ℕ → List Char × ℕ
  | _, [], idx => ([], idx)
  | left, sym :: rest, idx =>
      let right := rest.head?
      let (rep, idx') := findReplacement E rules sym left right idx
      let (restOut, idx'') := applyRulesAux E rules (some sym) rest idx'
      (rep ++ restOut, idx'')

/-- `LSystemParser.applyRules`: tokenize, then replace every symbol against
the same previous-generation token list. -/
def applyRules (E : EvalOracle) (rules : List ProductionRule)
    (input : List Char) (idx : ℕ) : List Char × ℕ :=
  applyRulesAux E rules none (tokenize input) idx

/-- The iteration loop of `LSystemParser.parse`. -/
def parseAux (E : EvalOracle) (rules : List ProductionRule) :
    ℕ → List Char → ℕ → List Char × ℕ
  | 0, cur, idx => (cur, idx)
  | n + 1, cur, idx =>
      let (next, idx') := applyRules E rules cur idx
      parseAux E rules n next idx'

/-- `LSystemParser.parse(iterations)` for the given axiom and rules. -/
def parseLSystem (E : EvalOracle) (axm : List Char)
    (rules : List ProductionRule) (iterations : ℕ) : List Char :=
  (parseAux E rules iterations axm 0).1

/-! ## Turtle interpreter (src/dendrite/engine/TurtleInterpreter.ts) -/

structure LSystemParameters where
  angle : ℚ
  stepLength : ℚ
  lengthDecay : ℚ
  widthInitial : ℚ
  widthDecay : ℚ
  angleVariance : ℚ
  iterations : ℕ
deriving Repr, DecidableEq

structure TurtleState where
  position : Vec2
  heading : Vec2
  width : ℚ
  depth : ℕ
  nodeId : Option ℕ
deriving Repr, DecidableEq

/-- Oracle bundle for the JS float library functions used by the turtle
interpreter and the colonization solver: `Math.sqrt`, `Math.cos`,
`Math.sin`, `Math.PI` and the instance's `random()` stream.  Every value a
JS double can take is a rational, so quantifying over this structure covers
every concrete execution. -/
structure MathOracle where
  sqrtQ : ℚ → ℚ
  cosQ : ℚ → ℚ
  sinQ : ℚ → ℚ
  piQ : ℚ
  rnd : ℕ → ℚ

/-- `vec2Rotate` with `Math.cos`/`Math.sin` taken from the oracle. -/
def vec2Rotate (O : MathOracle) (v : Vec2) (angle : ℚ) : Vec2 :=
  vec2RotateCS v (O.cosQ angle) (O.sinQ angle)

/-- The interpreter's whole mutable state at a point of the scan loop.
`nextId` and `nextSegId` model `generateId()` freshness for nodes and
segments, `rndIdx` is the position in the `random()` stream. -/
structure TIState where
  nodes : List BranchNode
  segments : List BranchSegment
  roots : List ℕ
  bounds : Bounds
  stack : List TurtleState
  st : TurtleState
  currentStepLength : ℚ
  age : ℕ
  nextId : ℕ
  nextSegId : ℕ
  rndIdx : ℕ
deriving Repr

/-- The state of `interpret` after the root node is created, before the
scan loop runs. -/
def initTIState (P : LSystemParameters) (startPos : Vec2) : TIState :=
  { nodes := [{ id := 0, position := startPos, parent := none, children := [],
                depth := 0, order := 0,
                attributes := { thickness := P.widthInitial, color := 0, age := 0 } }]
    segments := []
    roots := [0]
    bounds := expandBounds createBounds startPos
    stack := []
    st := { position := startPos, heading := ⟨0, -1⟩, width := P.widthInitial,
            depth := 0, nodeId := some 0 }
    currentStepLength := P.stepLength
    age := 0
    nextId := 1
    nextSegId := 0
    rndIdx := 0 }

/-- `parentNode.children.push(newNodeId)`. -/
def pushChild (nodes : List BranchNode) (pid cid : ℕ) : List BranchNode :=
  nodes.map (fun n => if n.id = pid then { n with children := n.children ++ [cid] } else n)

/-- The `'F' | 'G'` case: move forward, create a node, link it to the
current node (when there is one) and create a segment. -/
def stepForwardDraw (param : Option ℚ) (s : TIState) : TIState :=
  let stepLen := param.getD s.currentStepLength
  let newPos := vec2Add s.st.position
    ⟨s.st.heading.x * stepLen, s.st.heading.y * stepLen⟩
  let newNodeId := s.nextId
  let newNode : BranchNode :=
    { id := newNodeId, position := newPos, parent := s.st.nodeId, children := [],
      depth := s.st.depth, order := 0,
      attributes := { thickness := s.st.width,
                      color := min 1 ((s.st.depth : ℚ) * (1 / 10)),
                      age := (s.age : ℚ) } }
  let nodes1 := s.nodes ++ [newNode]
  let nodes2 :=
    match s.st.nodeId with
    | some pid => pushChild nodes1 pid newNodeId
    | none => nodes1
  let segNext :=
    match s.st.nodeId with
    | some pid => (s.segments ++
                     [({ id := s.nextSegId, start := pid, stop := newNodeId } : BranchSegment)],
                   s.nextSegId + 1)
    | none => (s.segments, s.nextSegId)
  { s with
    nodes := nodes2
    segments := segNext.1
    bounds := expandBounds s.bounds newPos
    st := { s.st with position := newPos, nodeId := some newNodeId }
    age := s.age + 1
    nextId := s.nextId + 1
    nextSegId := segNext.2 }

/-- One step of the interpreter's `switch` on the current symbol, with the
already-extracted parenthesized argument (`none` when absent or `NaN`). -/
def turtleStep (P : LSystemParameters) (O : MathOracle) (c : Char)
    (param : Option ℚ) (s : TIState) : TIState :=
  if c = 'F' ∨ c = 'G' then
    stepForwardDraw param s
  else if c = 'f' ∨ c = 'g' then
    let stepLen := param.getD s.currentStepLength
    { s with st := { s.st with
        position := vec2Add s.st.position
          ⟨s.st.heading.x * stepLen, s.st.heading.y * stepLen⟩
        nodeId := none } }
  else if c = '+' then
    let angle := param.getD P.angle
    let variance := (O.rnd s.rndIdx - 1 / 2) * 2 * P.angleVariance
    { s with
      st := { s.st with heading := vec2Rotate O s.st.heading (degToRad O.piQ (angle + variance)) }
      rndIdx := s.rndIdx + 1 }
  else if c = '-' then
    let angle := param.getD P.angle
    let variance := (O.rnd s.rndIdx - 1 / 2) * 2 * P.angleVariance
    { s with
      st := { s.st with heading := vec2Rotate O s.st.heading (degToRad O.piQ (-angle - variance)) }
      rndIdx := s.rndIdx + 1 }
  else if c = '[' then
    { s with
      stack := s.stack ++ [s.st]
      st := { s.st with depth := s.st.depth + 1, width := s.st.width * P.widthDecay } }
  else if c = ']' then
    match s.stack.getLast? with
    | some t => { s with stack := s.stack.dropLast, st := t }
    | none => s
  else if c = '!' then
    { s with st := { s.st with width := s.st.width * P.widthDecay } }
  else if c = '|' then
    { s with st := { s.st with heading := vec2Rotate O s.st.heading O.piQ } }
  else if c = '@' then
    -- JS `if (param)`: both a missing argument and an explicit 0 (or NaN)
    -- are falsy and take the decay branch.
    match param with
    | some v =>
        if v = 0 then { s with currentStepLength := s.currentStepLength * P.lengthDecay }
        else { s with currentStepLength := v }
    | none => { s with currentStepLength := s.currentStepLength * P.lengthDecay }
  else if c = '#' then
    { s with st := { s.st with width := s.st.width / P.widthDecay } }
  else
    -- '&', '^', '\\', '/' and every unknown symbol are no-ops.
    s

/-- The scan loop of `interpret`, including its inline parameter
extraction (same `indexOf(')')` logic as the grammar tokenizer).  Bounded
by fuel for the same reason as `tokenizeF`; fuel equal to the input length
always suffices. -/
def interpretLoopF (P : LSystemParameters) (O : MathOracle) :
    ℕ → List Char → TIState → TIState
  | 0, _, s => s
  | _, [], s => s
  | fuel + 1, c :: rest, s =>
      match rest with
      | '(' :: inner =>
          if c = ')' then interpretLoopF P O fuel rest (turtleStep P O c none s)
          else
            match breakOnClose inner with
            | some (ps, after) =>
                interpretLoopF P O fuel after (turtleStep P O c (parseFloatQ ps) s)
            | none => interpretLoopF P O fuel rest (turtleStep P O c none s)
      | _ => interpretLoopF P O fuel rest (turtleStep P O c none s)

def interpretLoop (P : LSystemParameters) (O : MathOracle)
    (cs : List Char) (s : TIState) : TIState :=
  interpretLoopF P O cs.length cs s

/-! ### Strahler order pass

`calculateStrahlerOrder` is textually identical in `TurtleInterpreter` and
`SpaceColonization` (the turtle version additionally rescales thickness);
one embedding serves both.  The JS recursion has no explicit bound; the
embedding carries fuel, and fuel `nodes.length + 1` per root is proven
sufficient for the graphs either interpreter builds. -/

structure StrahlerState where
  nodes : List BranchNode
  calculated : List ℕ
deriving Repr

/-- `node.order = ord` as a table update. -/
def setOrder (nodes : List BranchNode) (i : ℕ) (ord : ℕ) : List BranchNode :=
  nodes.map (fun n => if n.id = i then { n with order := ord } else n)

/-- `Math.max(...childOrders)` on a non-empty list of naturals. -/
def natMax (l : List ℕ) : ℕ := l.foldl max 0

/-- `node.children.map(childId => calculate(childId))` for a given
one-node computation `f`, threading the mutated table left to right. -/
def strahlerFold (f : ℕ → StrahlerState → StrahlerState × ℕ) :
    List ℕ → StrahlerState → StrahlerState × List ℕ
  | [], s => (s, [])
  | c :: cs, s =>
      let r1 := f c s
      let r2 := strahlerFold f cs r1.1
      (r2.1, r1.2 :: r2.2)

/-- The inner recursive `calculate(nodeId)`. -/
def strahlerCalc : ℕ → ℕ → StrahlerState → StrahlerState × ℕ
  | 0, _, s => (s, 0)
  | fuel + 1, nodeId, s =>
      if s.calculated.contains nodeId then
        (s, ((getNode s.nodes nodeId).map (·.order)).getD 0)
      else
        match getNode s.nodes nodeId with
        | none => (s, 0)
        | some node =>
            if node.children.isEmpty then
              ({ nodes := setOrder s.nodes nodeId 1,
                 calculated := nodeId :: s.calculated }, 1)
            else
              let r := strahlerFold (strahlerCalc fuel) node.children s
              let maxOrder := natMax r.2
              let countMax := (r.2.filter (fun o => o == maxOrder)).length
              let ord := if 2 ≤ countMax then maxOrder + 1 else maxOrder
              ({ nodes := setOrder r.1.nodes nodeId ord,
                 calculated := nodeId :: r.1.calculated }, ord)

/-- `roots.forEach(rootId => calculate(rootId))`. -/
def strahlerRun (nodes : List BranchNode) (roots : List ℕ) : StrahlerState :=
  roots.foldl (fun s r => (strahlerCalc (s.nodes.length + 1) r s).1) ⟨nodes, []⟩

/-- Largest `order` in the table (`Math.max` over the node values; the
turtle's table always contains at least the root). -/
def maxOrderOf (nodes : List BranchNode) : ℕ := natMax (nodes.map (·.order))

/-- The turtle interpreter's final thickness rescale:
`thickness = widthInitial * order / maxOrder`. -/
def updateThicknessLS (P : LSystemParameters) (nodes : List BranchNode) :
    List BranchNode :=
  let m := maxOrderOf nodes
  nodes.map (fun n =>
    { n with attributes :=
        { n.attributes with thickness := P.widthInitial * ((n.order : ℚ) / (m : ℚ)) } })

/-- `TurtleInterpreter.interpret(lSystemString, startPos)`. -/
def interpret (P : LSystemParameters) (O : MathOracle)
    (input : List Char) (startPos : Vec2) : BranchGraph :=
  let s := interpretLoop P O input (initTIState P startPos)
  let str := strahlerRun s.nodes s.roots
  { nodes := updateThicknessLS P str.nodes
    segments := s.segments
    roots := s.roots
    bounds := s.bounds
    algorithm := .lsystem }

/-! ## Space colonization solver (src/dendrite/engine/SpaceColonization.ts)

The constructor's five attractor-generation strategies (`uniform`, `mask`,
`boundary`, `poisson`, `painted` plus `addAttractor`) only fill
`this.attractors` with points that all start `active`; every theorem below
quantifies over an arbitrary attractor list, which covers each strategy's
possible outputs. -/

structure ColonizationParameters where
  attractionDistance : ℚ
  killDistance : ℚ
  stepSize : ℚ
  maxIterations : ℕ
  growthBias : Option Vec2
deriving Repr, DecidableEq

inductive ThicknessMode where
  | constant
  | depth
  | flow
deriving Repr, DecidableEq

structure ColonizationConfig where
  parameters : ColonizationParameters
  seeds : List Vec2
  thicknessMode : ThicknessMode
deriving Repr, DecidableEq

structure Attractor where
  id : ℕ
  position : Vec2
  active : Bool
deriving Repr, DecidableEq

structure InternalNode where
  id : ℕ
  position : Vec2
  parent : Option ℕ
  children : List ℕ
  influenceDirection : Vec2
  influenceCount : ℕ
deriving Repr, DecidableEq

/-- The solver's mutable state: the attractor array, the node `Map` (in
insertion order) and the id counter; `reports` records every
`(iteration, graph)` pair handed to the progress callback. -/
structure SCState where
  attractors : List Attractor
  nodes : List InternalNode
  nextId : ℕ
  reports : List (ℕ × BranchGraph)
deriving Repr

/-- `initializeSeeds`: one parentless node per seed position. -/
def initSeeds (seeds : List Vec2) : List InternalNode :=
  seeds.enum.map (fun p =>
    { id := p.1, position := p.2, parent := none, children := [],
      influenceDirection := ⟨0, 0⟩, influenceCount := 0 })

/-- Solver state right after construction, for a given attractor list. -/
def initSCState (seeds : List Vec2) (attractors : List Attractor) : SCState :=
  { attractors := attractors, nodes := initSeeds seeds,
    nextId := seeds.length, reports := [] }

def findINode (nodes : List InternalNode) (i : ℕ) : Option InternalNode :=
  nodes.find? (fun n => n.id == i)

def containsINode (nodes : List InternalNode) (i : ℕ) : Bool :=
  nodes.any (fun n => n.id == i)

/-- Reset of `influenceDirection`/`influenceCount` at the top of each
iteration. -/
def resetInfluence (nodes : List InternalNode) : List InternalNode :=
  nodes.map (fun n => { n with influenceDirection := ⟨0, 0⟩, influenceCount := 0 })

/-- The nearest-node search for one attractor: scan the table in order,
keeping the strictly closest node within `attractionDistance` (ties keep
the earlier node, mirroring `dist < closestDist`). -/
def closestNodeId (O : MathOracle) (attractionDistance : ℚ)
    (nodes : List InternalNode) (apos : Vec2) : Option ℕ :=
  (nodes.foldl
    (fun acc node =>
      let dist := vec2Distance O.sqrtQ node.position apos
      match acc with
      | none => if dist < attractionDistance then some (node.id, dist) else none
      | some best =>
          if dist < attractionDistance ∧ dist < best.2 then some (node.id, dist) else acc)
    none).map (·.1)

/-- The attractor-association loop: each active attractor adds a unit
vector toward itself onto its closest node's influence accumulator. -/
def associateAttractors (O : MathOracle) (attractionDistance : ℚ)
    (activeAttractors : List Attractor) (nodes : List InternalNode) :
    List InternalNode :=
  activeAttractors.foldl
    (fun nodes a =>
      match closestNodeId O attractionDistance nodes a.position with
      | some nid =>
          nodes.map (fun n =>
            if n.id = nid then
              { n with
                influenceDirection := vec2Add n.influenceDirection
                  (vec2Normalize O.sqrtQ (vec2Sub a.position n.position))
                influenceCount := n.influenceCount + 1 }
            else n)
      | none => nodes)
    nodes

/-- The growth loop: every influenced node spawns exactly one child at
`stepSize` along its normalized (optionally bias-blended) influence
direction.  Returns the updated existing nodes, the new nodes in creation
order, and the advanced id counter. -/
def growNodes (O : MathOracle) (stepSize : ℚ) (growthBias : Option Vec2) :
    List InternalNode → ℕ → List InternalNode × List InternalNode × ℕ
  | [], nid => ([], [], nid)
  | n :: rest, nid =>
      if 0 < n.influenceCount then
        let growDir0 := vec2Normalize O.sqrtQ n.influenceDirection
        let growDir :=
          match growthBias with
          | some gb => vec2Normalize O.sqrtQ (vec2Add growDir0 (vec2Scale gb (3 / 10)))
          | none => growDir0
        let newPos := vec2Add n.position (vec2Scale growDir stepSize)
        let newNode : InternalNode :=
          { id := nid, position := newPos, parent := some n.id, children := [],
            influenceDirection := ⟨0, 0⟩, influenceCount := 0 }
        let r := growNodes O stepSize growthBias rest (nid + 1)
        ({ n with children := n.children ++ [nid] } :: r.1, newNode :: r.2.1, r.2.2)
      else
        let r := growNodes O stepSize growthBias rest nid
        (n :: r.1, r.2.1, r.2.2)

/-- The kill sweep: every still-active attractor within `killDistance` of
any node of the (post-growth) table is deactivated. -/
def deactivateAttractors (O : MathOracle) (killDistance : ℚ)
    (nodes : List InternalNode) (attractors : List Attractor) : List Attractor :=
  attractors.map (fun a =>
    if a.active &&
       nodes.any (fun n => vec2Distance O.sqrtQ n.position a.position < killDistance)
    then { a with active := false }
    else a)

/-- One iteration of the growth loop (the body of `run`'s `for`), without
the progress report. -/
def doIteration (cfg : ColonizationConfig) (O : MathOracle) (s : SCState) : SCState :=
  let activeAttractors := s.attractors.filter (·.active)
  let nodes0 := resetInfluence s.nodes
  let nodes1 := associateAttractors O cfg.parameters.attractionDistance activeAttractors nodes0
  let g := growNodes O cfg.parameters.stepSize cfg.parameters.growthBias nodes1 s.nextId
  let nodes2 := g.1 ++ g.2.1
  let attractors1 := deactivateAttractors O cfg.parameters.killDistance nodes2 s.attractors
  { attractors := attractors1, nodes := nodes2, nextId := g.2.2, reports := s.reports }

/-- `calculateDepth`: length of the parent chain.  The JS `while` walk is
bounded here by fuel; the chains of every reachable state are strictly
id-decreasing, so fuel `nodes.length + 1` (as used by `buildGraph`)
suffices. -/
def calcDepth (nodes : List InternalNode) : ℕ → ℕ → ℕ
  | 0, _ => 0
  | fuel + 1, nid =>
      match findINode nodes nid with
      | none => 0
      | some n =>
          match n.parent with
          | some pid => calcDepth nodes fuel pid + 1
          | none => 0

/-- `updateThickness` (colonization): thickness by mode.  `Math.max` over
an empty table is `-Infinity` in JS; that value is only computed when the
table is empty, in which case no node exists to receive a thickness, so
the embedding's `natMax [] = 0` is unobservable. -/
def updateThickness (mode : ThicknessMode) (nodes : List BranchNode) :
    List BranchNode :=
  match mode with
  | .constant =>
      nodes.map (fun n => { n with attributes := { n.attributes with thickness := 1 } })
  | .depth =>
      let maxDepth := natMax (nodes.map (·.depth))
      nodes.map (fun n =>
        { n with attributes :=
            { n.attributes with thickness := 1 - (n.depth : ℚ) / ((maxDepth : ℚ) + 1) } })
  | .flow =>
      let maxOrder := natMax (nodes.map (·.order))
      nodes.map (fun n =>
        { n with attributes :=
            { n.attributes with thickness := (n.order : ℚ) / (maxOrder : ℚ) } })

/-- `buildGraph`: convert the internal table, derive roots (parentless
nodes in table order), one segment per parent link, then the Strahler pass
and the thickness pass. -/
def buildGraph (cfg : ColonizationConfig) (s : SCState) : BranchGraph :=
  let branchNodes := s.nodes.map (fun n =>
    let depth := calcDepth s.nodes (s.nodes.length + 1) n.id
    ({ id := n.id, position := n.position, parent := n.parent, children := n.children,
       depth := depth, order := 0,
       attributes := { thickness := 1, color := min 1 ((depth : ℚ) * (1 / 10)),
                       age := 0 } } : BranchNode))
  let roots := (s.nodes.filter (fun n => n.parent == none)).map (·.id)
  let bounds := s.nodes.foldl (fun b n => expandBounds b n.position) createBounds
  let segments := (s.nodes.filter (fun n => n.parent.isSome)).enum.map (fun p =>
    ({ id := p.1, start := p.2.parent.getD 0, stop := p.2.id } : BranchSegment))
  let str := strahlerRun branchNodes roots
  { nodes := updateThickness cfg.thicknessMode str.nodes
    segments := segments
    roots := roots
    bounds := bounds
    algorithm := .colonization }

/-- The `for` loop of `run`, with its early `break` when no attractor is
active, and the progress report every 5 iterations (the graph that would
be handed to `onProgress` is appended to `reports`). -/
def runAux (cfg : ColonizationConfig) (O : MathOracle) :
    ℕ → ℕ → SCState → SCState
  | 0, _, s => s
  | fuel + 1, iter, s =>
      if (s.attractors.filter (·.active)).isEmpty then s
      else
        let s1 := doIteration cfg O s
        let s2 :=
          if iter % 5 = 0 then
            { s1 with reports := s1.reports ++ [(iter, buildGraph cfg s1)] }
          else s1
        runAux cfg O fuel (iter + 1) s2

/-- `SpaceColonization.run()` from a constructed state: the returned graph
plus the final solver state (whose `attractors` field is what
`getAttractors()` exposes). -/
def runSC (cfg : ColonizationConfig) (O : MathOracle)
    (attractors : List Attractor) : BranchGraph × SCState :=
  let s := runAux cfg O cfg.parameters.maxIterations 0 (initSCState cfg.seeds attractors)
  (buildGraph cfg s, s)

/-! ## Jump Flood pass schedule (src/dendrite/engine/Rasterizer.ts, runJFA)

`runJFA` loops `stepSize = floor(resolution/2); while (stepSize >= 1)
{ ...one pass...; stepSize = floor(stepSize/2) }`.  Only the sequence of
step sizes is in scope for the claims; the GPU work per pass is not
modelled.  The halving loop is bounded here by fuel; fuel `n` suffices
from start value `n / 2`. -/

def jfaLoopF : ℕ → ℕ → List ℕ
  | 0, _ => []
  | fuel + 1, s => if 1 ≤ s then s :: jfaLoopF fuel (s / 2) else []

/-- The list of JFA step sizes executed for resolution `n`. -/
def jfaStepSizes (n : ℕ) : List ℕ := jfaLoopF n (n / 2)

theorem jfaLoopF_zero (fuel : ℕ) : jfaLoopF fuel 0 = [] := by
  cases fuel <;> simp [jfaLoopF]

theorem jfaLoopF_eq (fuel : ℕ) :
    ∀ s, s ≤ fuel → 1 ≤ s →
      jfaLoopF fuel s = (List.range (Nat.log2 s + 1)).map (fun k => s / 2 ^ k) := by
  induction fuel with
  | zero => intro s hs h1; omega
  | succ fuel ih =>
      intro s hs h1
      rw [show jfaLoopF (fuel + 1) s = s :: jfaLoopF fuel (s / 2) by simp [jfaLoopF, h1]]
      by_cases h2 : 2 ≤ s
      · have hd : 1 ≤ s / 2 := by omega
        have hf : s / 2 ≤ fuel := by omega
        rw [ih (s / 2) hf hd]
        rw [show Nat.log2 s = Nat.log2 (s / 2) + 1 by rw [Nat.log2]; simp [h2]]
        rw [show List.range (Nat.log2 (s / 2) + 1 + 1) =
              0 :: (List.range (Nat.log2 (s / 2) + 1)).map Nat.succ from
            List.range_succ_eq_map _]
        rw [List.map_cons, List.map_map]
        congr 1
        · simp
        · apply List.map_congr_left
          intro k _
          simp [Function.comp, Nat.div_div_eq_div_mul, pow_succ, mul_comm]
      · have hs1 : s = 1 := by omega
        subst hs1
        rw [jfaLoopF_zero]
        rw [show Nat.log2 1 = 0 by rw [Nat.log2]; simp]
        rw [show List.range (0 + 1) = [0] by rfl]
        simp

theorem jfaStepSizes_eq (n : ℕ) (h : 1 ≤ n) :
    jfaStepSizes n = (List.range (Nat.log2 n)).map (fun k => n / 2 ^ (k + 1)) := by
  unfold jfaStepSizes
  by_cases h2 : 2 ≤ n
  · have hd : 1 ≤ n / 2 := by omega
    have hf : n / 2 ≤ n := by omega
    rw [jfaLoopF_eq n (n / 2) hf hd]
    rw [show Nat.log2 n = Nat.log2 (n / 2) + 1 by rw [Nat.log2]; simp [h2]]
    apply List.map_congr_left
    intro k _
    simp [Nat.div_div_eq_div_mul, pow_succ, mul_comm]
  · have hs1 : n = 1 := by omega
    subst hs1
    rw [show (1 : ℕ) / 2 = 0 from rfl, jfaLoopF_zero]
    rw [show Nat.log2 1 = 0 by rw [Nat.log2]; simp]
    simp

theorem jfaStepSizes_pos (n : ℕ) : ∀ x ∈ jfaStepSizes n, 1 ≤ x := by
  unfold jfaStepSizes
  generalize n / 2 = s
  induction n generalizing s with
  | zero => simp [jfaLoopF]
  | succ fuel ih =>
      intro x hx
      by_cases h1 : 1 ≤ s
      · simp [jfaLoopF, h1] at hx
        rcases hx with h | h
        · omega
        · exact ih _ x h
      · simp [jfaLoopF, h1] at hx


/-! ## Shape analysis of `turtleStep`

Every branch of the interpreter `switch` either draws (`stepForwardDraw`),
pushes the turtle state, pops it, or leaves the graph tables, the stack,
the age and the id counters untouched while moving the cursor (possibly
detaching it, `nodeId := none`).  All structural reasoning below goes
through this case analysis. -/

theorem turtleStep_cases (P : LSystemParameters) (O : MathOracle) (c : Char)
    (param : Option ℚ) (s : TIState) :
    turtleStep P O c param s = stepForwardDraw param s ∨
    turtleStep P O c param s =
      { s with stack := s.stack ++ [s.st],
               st := { s.st with depth := s.st.depth + 1,
                                 width := s.st.width * P.widthDecay } } ∨
    (∃ t, s.stack.getLast? = some t ∧
        turtleStep P O c param s = { s with stack := s.stack.dropLast, st := t }) ∨
    (∃ pos hd w csl ridx nid, (nid = s.st.nodeId ∨ nid = none) ∧
        turtleStep P O c param s =
          { nodes := s.nodes, segments := s.segments, roots := s.roots, bounds := s.bounds,
            stack := s.stack,
            st := { position := pos, heading := hd, width := w,
                    depth := s.st.depth, nodeId := nid },
            currentStepLength := csl, age := s.age, nextId := s.nextId,
            nextSegId := s.nextSegId, rndIdx := ridx }) := by
  unfold turtleStep
  by_cases h1 : c = 'F' ∨ c = 'G'
  · rw [if_pos h1]; exact Or.inl rfl
  rw [if_neg h1]
  by_cases h2 : c = 'f' ∨ c = 'g'
  · rw [if_pos h2]
    refine Or.inr (Or.inr (Or.inr ⟨_, _, _, _, _, none, Or.inr rfl, rfl⟩))
  rw [if_neg h2]
  by_cases h3 : c = '+'
  · rw [if_pos h3]
    exact Or.inr (Or.inr (Or.inr ⟨_, _, _, _, _, s.st.nodeId, Or.inl rfl, rfl⟩))
  rw [if_neg h3]
  by_cases h4 : c = '-'
  · rw [if_pos h4]
    exact Or.inr (Or.inr (Or.inr ⟨_, _, _, _, _, s.st.nodeId, Or.inl rfl, rfl⟩))
  rw [if_neg h4]
  by_cases h5 : c = '['
  · rw [if_pos h5]; exact Or.inr (Or.inl rfl)
  rw [if_neg h5]
  by_cases h6 : c = ']'
  · rw [if_pos h6]
    cases hl : s.stack.getLast? with
    | some t => exact Or.inr (Or.inr (Or.inl ⟨t, rfl, rfl⟩))
    | none =>
        exact Or.inr (Or.inr (Or.inr ⟨_, _, _, _, _, s.st.nodeId, Or.inl rfl, rfl⟩))
  rw [if_neg h6]
  by_cases h7 : c = '!'
  · rw [if_pos h7]
    exact Or.inr (Or.inr (Or.inr ⟨_, _, _, _, _, s.st.nodeId, Or.inl rfl, rfl⟩))
  rw [if_neg h7]
  by_cases h8 : c = '|'
  · rw [if_pos h8]
    exact Or.inr (Or.inr (Or.inr ⟨_, _, _, _, _, s.st.nodeId, Or.inl rfl, rfl⟩))
  rw [if_neg h8]
  by_cases h9 : c = '@'
  · rw [if_pos h9]
    cases param with
    | some v =>
        refine Or.inr (Or.inr (Or.inr ⟨s.st.position, s.st.heading, s.st.width,
          (if v = 0 then s.currentStepLength * P.lengthDecay else v), s.rndIdx,
          s.st.nodeId, Or.inl rfl, ?_⟩))
        show (if v = 0 then ({ s with currentStepLength := s.currentStepLength * P.lengthDecay } : TIState)
              else { s with currentStepLength := v }) =
          { nodes := s.nodes, segments := s.segments, roots := s.roots, bounds := s.bounds,
            stack := s.stack,
            st := { position := s.st.position, heading := s.st.heading, width := s.st.width,
                    depth := s.st.depth, nodeId := s.st.nodeId },
            currentStepLength := if v = 0 then s.currentStepLength * P.lengthDecay else v,
            age := s.age, nextId := s.nextId, nextSegId := s.nextSegId, rndIdx := s.rndIdx }
        by_cases hv : v = 0 <;> simp [hv]
    | none =>
        exact Or.inr (Or.inr (Or.inr ⟨_, _, _, _, _, s.st.nodeId, Or.inl rfl, rfl⟩))
  rw [if_neg h9]
  by_cases h10 : c = '#'
  · rw [if_pos h10]
    exact Or.inr (Or.inr (Or.inr ⟨_, _, _, _, _, s.st.nodeId, Or.inl rfl, rfl⟩))
  rw [if_neg h10]
  exact Or.inr (Or.inr (Or.inr ⟨_, _, _, _, _, s.st.nodeId, Or.inl rfl, rfl⟩))


/-- `turtleStep` never touches the roots list. -/
theorem turtleStep_roots (P : LSystemParameters) (O : MathOracle) (c : Char)
    (param : Option ℚ) (s : TIState) :
    (turtleStep P O c param s).roots = s.roots := by
  rcases turtleStep_cases P O c param s with h | h | ⟨t, _, h⟩ |
    ⟨pos, hd, w, csl, ridx, nid, _, h⟩ <;> rw [h] <;> rfl

/-- Any property preserved by every `turtleStep` is preserved by the whole
scan loop. -/
theorem interpretLoopF_preserve (P : LSystemParameters) (O : MathOracle)
    {Q : TIState → Prop}
    (hstep : ∀ c p s, Q s → Q (turtleStep P O c p s)) :
    ∀ fuel cs s, Q s → Q (interpretLoopF P O fuel cs s) := by
  intro fuel
  induction fuel with
  | zero =>
      intro cs s h
      cases cs <;> exact h
  | succ fuel ih =>
      intro cs s h
      cases cs with
      | nil => exact h
      | cons c rest =>
          cases rest with
          | nil => exact ih _ _ (hstep _ _ _ h)
          | cons c2 inner =>
              by_cases hc2 : c2 = '('
              · subst hc2
                by_cases hc : c = ')'
                · subst hc
                  exact ih _ _ (hstep _ _ _ h)
                · cases hb : breakOnClose inner with
                  | some pr =>
                      simp only [interpretLoopF, hb, hc]
                      exact ih _ _ (hstep _ _ _ h)
                  | none =>
                      simp only [interpretLoopF, hb, hc]
                      exact ih _ _ (hstep _ _ _ h)
              · have : interpretLoopF P O (fuel + 1) (c :: c2 :: inner) s =
                    interpretLoopF P O fuel (c2 :: inner) (turtleStep P O c none s) := by
                  simp only [interpretLoopF]
                  cases hc2v : c2 <;> simp_all
                rw [this]
                exact ih _ _ (hstep _ _ _ h)

/-- The roots list the scan loop ends with is the one it starts with. -/
theorem interpretLoop_roots (P : LSystemParameters) (O : MathOracle)
    (cs : List Char) (s : TIState) :
    (interpretLoop P O cs s).roots = s.roots := by
  exact interpretLoopF_preserve P O
    (Q := fun t => t.roots = s.roots)
    (fun c p t h => by
      show (turtleStep P O c p t).roots = s.roots
      rw [turtleStep_roots]
      exact h) cs.length cs s rfl

/-! ## Concrete fixtures used by witnesses and counterexamples -/

/-- A concrete oracle (all library functions return 0); claims never depend
on the values it takes. -/
def O0 : MathOracle := ⟨fun _ => 0, fun _ => 0, fun _ => 0, 0, fun _ => 0⟩

/-- A concrete expression-evaluation oracle whose guard and arithmetic
evaluations always throw. -/
def E0 : EvalOracle := ⟨fun _ _ => none, fun _ _ => none, fun _ => [], fun _ => 0⟩

/-- All-zero interpretation parameters. -/
def P0 : LSystemParameters := ⟨0, 0, 0, 0, 0, 0, 0⟩

/-- Parameters with `stepLength = 10`, `lengthDecay = 1/2` (the shape used
by the step-length claims). -/
def PLen : LSystemParameters := ⟨0, 10, 1 / 2, 1, 1, 0, 0⟩

/-- The two-rule grammar A → AB, B → A. -/
def rulesAB : List ProductionRule :=
  [⟨['A'], ['A', 'B'], none, none, none, none⟩,
   ⟨['B'], ['A'], none, none, none, none⟩]


/-- **C2.** With axiom `A` and rules A → AB, B → A, `LSystemParser.parse(k)`
for k = 0, 1, 2, 3 yields exactly `A`, `AB`, `ABA`, `ABAAB` — parallel
rewriting over the previous generation's string.  The statement quantifies
over the evaluation oracle: no guard, arithmetic or random draw influences
this grammar. -/
theorem c2_parse_abab_sequence (E : EvalOracle) :
    parseLSystem E ['A'] rulesAB 0 = ['A'] ∧
    parseLSystem E ['A'] rulesAB 1 = ['A', 'B'] ∧
    parseLSystem E ['A'] rulesAB 2 = ['A', 'B', 'A'] ∧
    parseLSystem E ['A'] rulesAB 3 = ['A', 'B', 'A', 'A', 'B'] :=
  ⟨rfl, rfl, rfl, rfl⟩

/-- **C5 (amended).** For every resolution n ≥ 1 the Jump Flood stage runs
passes with step sizes exactly `n / 2^(k+1)` for `k < floor(log2 n)` (that
is `floor(n/2), floor(n/4), …`, every one of them at least 1 and reaching
1 whenever n ≥ 2) — a total of `floor(log2 n)` passes, not
`ceil(log2 n)`. -/
theorem c5_jfa_pass_schedule (n : ℕ) (h : 1 ≤ n) :
    jfaStepSizes n = (List.range (Nat.log2 n)).map (fun k => n / 2 ^ (k + 1)) ∧
    (jfaStepSizes n).length = Nat.log2 n ∧
    (∀ x ∈ jfaStepSizes n, 1 ≤ x) ∧
    (2 ≤ n → 1 ∈ jfaStepSizes n) := by
  have he := jfaStepSizes_eq n h
  refine ⟨he, by rw [he]; simp, jfaStepSizes_pos n, ?_⟩
  intro h2
  rw [he]
  have hl1 : 1 ≤ Nat.log2 n := by
    rw [Nat.log2]
    simp [h2]
  have hle : 2 ^ Nat.log2 n ≤ n := Nat.log2_self_le (by omega)
  have hlt : n < 2 ^ (Nat.log2 n + 1) := Nat.lt_log2_self
  refine List.mem_map.mpr ⟨Nat.log2 n - 1, List.mem_range.mpr (by omega), ?_⟩
  rw [show Nat.log2 n - 1 + 1 = Nat.log2 n by omega]
  rw [pow_succ] at hlt
  exact Nat.div_eq_of_lt_le (by omega) (by omega)

theorem c5_witness :
    1 ≤ 8 ∧ (jfaStepSizes 8).length = Nat.log2 8 ∧ jfaStepSizes 8 = [4, 2, 1] :=
  ⟨by norm_num, (c5_jfa_pass_schedule 8 (by norm_num)).2.1, rfl⟩

/-- **C5 (counterexample).** At resolution 3 the loop executes exactly one
pass (step size 1), but `ceil(log2 3) = 2`: the claimed pass count is
wrong for non-powers of two. -/
theorem c5_counterexample : ¬ (jfaStepSizes 3).length = Nat.clog 2 3 := by
  have h1 : (jfaStepSizes 3).length = 1 := rfl
  have h3 : Nat.clog 2 2 = 1 := by
    rw [Nat.clog_of_two_le (by norm_num) (by norm_num)]
    norm_num [Nat.clog_one_right]
  have h2 : Nat.clog 2 3 = 2 := by
    rw [Nat.clog_of_two_le (by norm_num) (by norm_num)]
    norm_num [h3]
  omega


/-- **C6 (amended).** The `@` symbol sets the current step length to its
explicit argument only when that argument is non-zero (JS truthiness);
with argument 0, or with no argument, the step length is instead
multiplied by the configured length-decay factor. -/
theorem c6_step_length_truthiness (P : LSystemParameters) (O : MathOracle)
    (s : TIState) (v : ℚ) (hv : v ≠ 0) :
    (turtleStep P O '@' (some v) s).currentStepLength = v ∧
    (turtleStep P O '@' (some 0) s).currentStepLength =
      s.currentStepLength * P.lengthDecay ∧
    (turtleStep P O '@' none s).currentStepLength =
      s.currentStepLength * P.lengthDecay := by
  refine ⟨?_, rfl, rfl⟩
  rw [show turtleStep P O '@' (some v) s =
        if v = 0 then { s with currentStepLength := s.currentStepLength * P.lengthDecay }
        else { s with currentStepLength := v } from rfl]
  rw [if_neg hv]

theorem c6_witness :
    (5 : ℚ) ≠ 0 ∧
    (turtleStep PLen O0 '@' (some 5) (initTIState PLen ⟨0, 0⟩)).currentStepLength = 5 :=
  ⟨by norm_num,
   (c6_step_length_truthiness PLen O0 (initTIState PLen ⟨0, 0⟩) 5 (by norm_num)).1⟩

/-- **C6 (counterexample).** Interpreting `@(0)F` with stepLength 10 and
lengthDecay 1/2 puts the drawn child at (0, −5): the explicit argument 0
did not set the step length to 0 (which would have left the child at the
start position (0, 0)); the decay branch ran instead. -/
theorem c6_counterexample :
    (getNode (interpret PLen O0 ['@', '(', '0', ')', 'F'] ⟨0, 0⟩).nodes 1).map
        (fun n => n.position) = some ⟨0, -5⟩ ∧
    ¬ (getNode (interpret PLen O0 ['@', '(', '0', ')', 'F'] ⟨0, 0⟩).nodes 1).map
        (fun n => n.position) = some ⟨0, 0⟩ :=
  ⟨by decide, by decide⟩


/-- `guardOk` is false exactly when a non-empty guard was consulted and its
evaluation succeeded with a falsy value. -/
theorem guardOk_false_iff (E : EvalOracle) (rule : ProductionRule) (sym : ParsedSymbol) :
    guardOk E rule sym = false ↔
      ∃ c pl, rule.condition = some c ∧ c ≠ [] ∧ sym.params = some pl ∧
        E.condEval c pl = some false := by
  unfold guardOk evaluateCondition
  cases hc : rule.condition with
  | none => simp
  | some c =>
      cases hp : sym.params with
      | none => simp
      | some pl =>
          by_cases hce : c.isEmpty
          · have hceq : c = [] := by simpa [List.isEmpty_iff] using hce
            subst hceq
            simp
          · have hne : c ≠ [] := by simpa [List.isEmpty_iff] using hce
            cases hev : E.condEval c pl with
            | none => simp [hce, hev]
            | some b =>
                cases b with
                | true => simp [hce, hev]
                | false => simp [hce, hev, hne]

/-- **C7.** A guard whose evaluation throws is treated as satisfied:
`evaluateCondition` returns `true` on a thrown evaluation, a rule whose
guard throws matches exactly when its predecessor and context checks do,
and a rule can only be excluded by its guard when the guard evaluated
successfully to a falsy value. -/
theorem c7_broken_guard_never_blocks (E : EvalOracle) (rule : ProductionRule)
    (sym : ParsedSymbol) (left right : Option ParsedSymbol)
    (cond : List Char) (ps : List ℚ) :
    (E.condEval cond ps = none → evaluateCondition E cond ps = true) ∧
    ((∀ c pl, rule.condition = some c → sym.params = some pl →
        E.condEval c pl = none) →
      ruleMatches E rule sym left right =
        (predecessorOk rule sym && leftContextOk rule left && rightContextOk rule right)) ∧
    (ruleMatches E rule sym left right = false →
      (predecessorOk rule sym && leftContextOk rule left && rightContextOk rule right) = false ∨
      ∃ c pl, rule.condition = some c ∧ c ≠ [] ∧ sym.params = some pl ∧
        E.condEval c pl = some false) := by
  refine ⟨?_, ?_, ?_⟩
  · intro h
    unfold evaluateCondition
    rw [h]
  · intro hth
    have hg : guardOk E rule sym = true := by
      unfold guardOk evaluateCondition
      cases hc : rule.condition with
      | none => simp
      | some c =>
          cases hp : sym.params with
          | none => simp
          | some pl =>
              by_cases hce : c.isEmpty
              · simp [hce]
              · simp [hce, hth c pl hc hp]
    unfold ruleMatches
    rw [hg, Bool.and_true]
  · intro hm
    by_cases hpre : (predecessorOk rule sym && leftContextOk rule left &&
        rightContextOk rule right) = false
    · exact Or.inl hpre
    · right
      rw [← guardOk_false_iff E rule sym]
      unfold ruleMatches at hm
      rw [Bool.not_eq_false] at hpre
      rw [hpre, Bool.true_and] at hm
      exact hm

/-- A concrete rule with a guard (which `E0` always fails to evaluate). -/
def ruleGuarded : ProductionRule := ⟨['A'], ['B'], none, some ['x'], none, none⟩

/-- A concrete symbol carrying a parameter. -/
def symA : ParsedSymbol := ⟨'A', some [1]⟩

theorem c7_witness :
    E0.condEval ['x'] [1] = none ∧
    evaluateCondition E0 ['x'] [1] = true ∧
    ruleMatches E0 ruleGuarded symA none none =
      (predecessorOk ruleGuarded symA && leftContextOk ruleGuarded none &&
        rightContextOk ruleGuarded none) ∧
    ruleMatches E0 ruleGuarded symA none none = true := by
  have h := c7_broken_guard_never_blocks E0 ruleGuarded symA none none ['x'] [1]
  exact ⟨rfl, h.1 rfl, h.2.1 (fun c pl _ _ => rfl), rfl⟩

/-- **C9.** For every interpreted string the roots list of the returned
graph is exactly the singleton holding the initial root node's id; in
particular (string `fF`) a node drawn right after a move (`f`, which
nulls the current node) has `parent = null` yet is absent from `roots`,
so `roots` does not enumerate the parentless nodes of the graph. -/
theorem c9_roots_only_initial :
    (∀ (P : LSystemParameters) (O : MathOracle) (input : List Char) (startPos : Vec2),
        (interpret P O input startPos).roots = [0]) ∧
    (getNode (interpret P0 O0 ['f', 'F'] ⟨0, 0⟩).nodes 1).map
        (fun n => (n.parent, n.children)) = some (none, []) ∧
    1 ∉ (interpret P0 O0 ['f', 'F'] ⟨0, 0⟩).roots := by
  refine ⟨?_, by decide, by decide⟩
  intro P O input startPos
  show (interpretLoop P O input (initTIState P startPos)).roots = [0]
  rw [interpretLoop_roots]
  rfl

/-- **C10.** `vec2Normalize` is total: the zero vector normalizes to the
zero vector rather than dividing by zero; consequently a node whose
influence vectors cancel to the zero vector (no growth bias configured)
still spawns exactly one child, placed at the parent's own position. -/
theorem c10_zero_normalize_growth (sqrtQ : ℚ → ℚ) (O : MathOracle)
    (stepSize : ℚ) (rest : List InternalNode) (nid : ℕ) (n : InternalNode)
    (hs : sqrtQ 0 = 0) (hO : O.sqrtQ 0 = 0)
    (hc : 0 < n.influenceCount) (hd : n.influenceDirection = ⟨0, 0⟩) :
    vec2Normalize sqrtQ ⟨0, 0⟩ = ⟨0, 0⟩ ∧
    (growNodes O stepSize none (n :: rest) nid).2.1.head? =
      some { id := nid, position := n.position, parent := some n.id, children := [],
             influenceDirection := ⟨0, 0⟩, influenceCount := 0 } := by
  have hnorm : ∀ f : ℚ → ℚ, f 0 = 0 → vec2Normalize f ⟨0, 0⟩ = ⟨0, 0⟩ := by
    intro f hf
    unfold vec2Normalize vec2Length
    norm_num [hf]
  refine ⟨hnorm sqrtQ hs, ?_⟩
  have hscale : vec2Scale ⟨0, 0⟩ stepSize = (⟨0, 0⟩ : Vec2) := by
    unfold vec2Scale
    norm_num
  have hadd : vec2Add n.position ⟨0, 0⟩ = n.position := by
    unfold vec2Add
    norm_num
  simp only [growNodes]
  rw [if_pos hc]
  simp [hd, hnorm O.sqrtQ hO, hscale, hadd]

theorem c10_witness :
    (growNodes O0 7 none
        [{ id := 4, position := ⟨3, 9⟩, parent := none, children := [],
           influenceDirection := ⟨0, 0⟩, influenceCount := 2 }] 5).2.1.head? =
      some { id := 5, position := ⟨3, 9⟩, parent := some 4, children := [],
             influenceDirection := ⟨0, 0⟩, influenceCount := 0 } :=
  (c10_zero_normalize_growth (fun _ => 0) O0 7 [] 5
    { id := 4, position := ⟨3, 9⟩, parent := none, children := [],
      influenceDirection := ⟨0, 0⟩, influenceCount := 2 }
    rfl rfl (by norm_num) rfl).2


/-! ## Structure preservation of the order and thickness passes

The Strahler pass rewrites only `order` fields; the thickness passes
rewrite only `attributes.thickness`.  These lemmas let every structural
claim about a final graph be transported back to the raw table the
interpreter built. -/

/-- Forget the `order` field. -/
def stripOrder (n : BranchNode) : BranchNode := { n with order := 0 }

/-- Forget the `attributes.thickness` field. -/
def stripThick (n : BranchNode) : BranchNode :=
  { n with attributes := { n.attributes with thickness := 0 } }

/-- A projection invariant under a strip map is equal on strip-equal
lists. -/
theorem map_proj_strip {α β : Type} (strip : α → α) (g : α → β)
    (hg : ∀ n, g (strip n) = g n) {l l' : List α}
    (h : l'.map strip = l.map strip) : l'.map g = l.map g := by
  have e : ∀ m : List α, m.map g = (m.map strip).map g := by
    intro m
    rw [List.map_map]
    apply List.map_congr_left
    intro a _
    exact (hg a).symm
  rw [e l', h, ← e l]

/-- Members of projection-equal lists have projection-equal partners. -/
theorem mem_map_proj {α α' β : Type} (g : α → β) (g' : α' → β)
    {l : List α} {l' : List α'}
    (h : l'.map g' = l.map g) : ∀ x ∈ l', ∃ y ∈ l, g y = g' x := by
  intro x hx
  have hm : g' x ∈ l'.map g' := List.mem_map_of_mem g' hx
  rw [h] at hm
  obtain ⟨y, hy, he⟩ := List.mem_map.mp hm
  exact ⟨y, hy, he⟩

theorem setOrder_strip (nodes : List BranchNode) (i v : ℕ) :
    (setOrder nodes i v).map stripOrder = nodes.map stripOrder := by
  unfold setOrder
  rw [List.map_map]
  apply List.map_congr_left
  intro n _
  by_cases h : n.id = i <;> simp [stripOrder, h]

theorem strahlerFold_strip (f : ℕ → StrahlerState → StrahlerState × ℕ)
    (hf : ∀ c s, (f c s).1.nodes.map stripOrder = s.nodes.map stripOrder) :
    ∀ (cs : List ℕ) (s : StrahlerState),
      (strahlerFold f cs s).1.nodes.map stripOrder = s.nodes.map stripOrder := by
  intro cs
  induction cs with
  | nil => intro s; rfl
  | cons c cs ih =>
      intro s
      show (strahlerFold f cs (f c s).1).1.nodes.map stripOrder = s.nodes.map stripOrder
      rw [ih, hf]

theorem strahlerCalc_strip :
    ∀ (fuel nid : ℕ) (s : StrahlerState),
      (strahlerCalc fuel nid s).1.nodes.map stripOrder = s.nodes.map stripOrder := by
  intro fuel
  induction fuel with
  | zero => intro nid s; rfl
  | succ fuel ih =>
      intro nid s
      simp only [strahlerCalc]
      split
      · rfl
      · split
        · rfl
        · split
          · show (setOrder s.nodes _ 1).map stripOrder = s.nodes.map stripOrder
            exact setOrder_strip s.nodes _ 1
          · show (setOrder (strahlerFold (strahlerCalc fuel) _ s).1.nodes _ _).map stripOrder =
              s.nodes.map stripOrder
            rw [setOrder_strip, strahlerFold_strip (strahlerCalc fuel) ih]

theorem strahlerRun_strip (nodes : List BranchNode) (roots : List ℕ) :
    (strahlerRun nodes roots).nodes.map stripOrder = nodes.map stripOrder := by
  suffices h : ∀ (rs : List ℕ) (s : StrahlerState),
      s.nodes.map stripOrder = nodes.map stripOrder →
      (rs.foldl (fun s r => (strahlerCalc (s.nodes.length + 1) r s).1) s).nodes.map stripOrder =
        nodes.map stripOrder by
    exact h roots ⟨nodes, []⟩ rfl
  intro rs
  induction rs with
  | nil => intro s hs; exact hs
  | cons r rs ih =>
      intro s hs
      apply ih
      rw [strahlerCalc_strip]
      exact hs

theorem updateThickness_strip (mode : ThicknessMode) (nodes : List BranchNode) :
    (updateThickness mode nodes).map stripThick = nodes.map stripThick := by
  cases mode <;>
    · simp only [updateThickness]
      rw [List.map_map]
      apply List.map_congr_left
      intro n _
      simp [stripThick]

theorem updateThicknessLS_strip (P : LSystemParameters) (nodes : List BranchNode) :
    (updateThicknessLS P nodes).map stripThick = nodes.map stripThick := by
  simp only [updateThicknessLS]
  rw [List.map_map]
  apply List.map_congr_left
  intro n _
  simp [stripThick]

/-- The identity/position/parent/children data of `buildGraph`'s nodes is
exactly that of the solver's internal table. -/
theorem buildGraph_proj (cfg : ColonizationConfig) (s : SCState) :
    (buildGraph cfg s).nodes.map (fun n => (n.id, n.position, n.parent, n.children)) =
      s.nodes.map (fun n => (n.id, n.position, n.parent, n.children)) := by
  show (updateThickness cfg.thicknessMode (strahlerRun _ _).nodes).map _ = _
  rw [map_proj_strip stripThick (fun n => (n.id, n.position, n.parent, n.children))
      (fun n => rfl) (updateThickness_strip _ _)]
  rw [map_proj_strip stripOrder (fun n => (n.id, n.position, n.parent, n.children))
      (fun n => rfl) (strahlerRun_strip _ _)]
  rw [List.map_map]
  apply List.map_congr_left
  intro n _
  rfl

/-! ## The kill sweep (C4) -/

/-- Every still-active attractor is farther than `killDistance` from every
node of the current table. -/
def KillSweepDone (O : MathOracle) (kill : ℚ) (s : SCState) : Prop :=
  ∀ a ∈ s.attractors, a.active = true →
    ∀ nd ∈ s.nodes, ¬ vec2Distance O.sqrtQ nd.position a.position < kill

theorem deactivateAttractors_spec (O : MathOracle) (kill : ℚ)
    (nodes : List InternalNode) (attractors : List Attractor) :
    ∀ a ∈ deactivateAttractors O kill nodes attractors, a.active = true →
      ∀ nd ∈ nodes, ¬ vec2Distance O.sqrtQ nd.position a.position < kill := by
  intro a ha hact nd hnd hlt
  unfold deactivateAttractors at ha
  obtain ⟨a0, ha0, he⟩ := List.mem_map.mp ha
  split at he
  · rw [← he] at hact
    simp at hact
  · next hcond =>
      rw [← he] at hact hlt
      apply hcond
      rw [Bool.and_eq_true]
      refine ⟨hact, ?_⟩
      rw [List.any_eq_true]
      exact ⟨nd, hnd, by simpa using hlt⟩

/-- Each iteration re-establishes the kill-sweep property against the
post-growth table. -/
theorem doIteration_killSweep (cfg : ColonizationConfig) (O : MathOracle) (s : SCState) :
    KillSweepDone O cfg.parameters.killDistance (doIteration cfg O s) := by
  intro a ha hact nd hnd
  exact deactivateAttractors_spec O _ _ _ a ha hact nd hnd

/-- Any property preserved by `doIteration` and indifferent to `reports`
is preserved by the whole loop. -/
theorem runAux_preserve (cfg : ColonizationConfig) (O : MathOracle)
    {Q : SCState → Prop}
    (hdo : ∀ s, Q s → Q (doIteration cfg O s))
    (hrep : ∀ s r, Q s → Q { s with reports := r }) :
    ∀ fuel iter s, Q s → Q (runAux cfg O fuel iter s) := by
  intro fuel
  induction fuel with
  | zero => intro iter s h; exact h
  | succ fuel ih =>
      intro iter s h
      simp only [runAux]
      split
      · exact h
      · apply ih
        split
        · exact hrep _ _ (hdo _ h)
        · exact hdo _ h

theorem killSweep_of_no_active (O : MathOracle) (kill : ℚ) (s : SCState)
    (h : (s.attractors.filter (·.active)).isEmpty = true) :
    KillSweepDone O kill s := by
  intro a ha hact
  exfalso
  have hm : a ∈ s.attractors.filter (·.active) :=
    List.mem_filter.mpr ⟨ha, by simp [hact]⟩
  rw [List.isEmpty_iff] at h
  rw [h] at hm
  simp at hm

/-- After at least one loop entry (an iteration or the empty-attractor
break), the kill-sweep property holds of the final state. -/
theorem runAux_killSweep (cfg : ColonizationConfig) (O : MathOracle) :
    ∀ fuel iter s, 1 ≤ fuel →
      KillSweepDone O cfg.parameters.killDistance (runAux cfg O fuel iter s) := by
  intro fuel
  cases fuel with
  | zero => intro iter s h; omega
  | succ fuel =>
      intro iter s _
      simp only [runAux]
      split
      · next hempty => exact killSweep_of_no_active O _ s hempty
      · apply runAux_preserve cfg O
          (fun t _ => doIteration_killSweep cfg O t)
          (fun t r h => h)
        split
        · exact doIteration_killSweep cfg O s
        · exact doIteration_killSweep cfg O s

/-- **C4 (amended).** For every colonization configuration with
`maxIterations >= 1` (so the growth loop is entered at least once), after
`run()` every attractor strictly within `killDistance` of some node of the
final graph is inactive. -/
theorem c4_kill_distance_inactive (cfg : ColonizationConfig) (O : MathOracle)
    (attractors : List Attractor) (h : 1 <= cfg.parameters.maxIterations) :
    forall a, a ∈ (runSC cfg O attractors).2.attractors →
      (∃ nd ∈ (runSC cfg O attractors).1.nodes,
          vec2Distance O.sqrtQ nd.position a.position < cfg.parameters.killDistance) →
      a.active = false := by
  intro a ha hex
  obtain ⟨nd, hnd, hlt⟩ := hex
  have hks := runAux_killSweep cfg O cfg.parameters.maxIterations 0
    (initSCState cfg.seeds attractors) h
  by_contra hactive
  have hact : a.active = true := by
    cases hb : a.active
    · exact absurd hb hactive
    · rfl
  have hproj := buildGraph_proj cfg
    (runAux cfg O cfg.parameters.maxIterations 0 (initSCState cfg.seeds attractors))
  obtain ⟨ind, hind, heq⟩ := mem_map_proj _ _ hproj nd hnd
  have hpos : ind.position = nd.position := congrArg (fun t => t.2.1) heq
  exact hks a ha hact ind hind (by rw [hpos]; exact hlt)


/-- One seed at the origin, one attractor on top of it, kill distance 1,
a single iteration. -/
def cfg4 : ColonizationConfig := ⟨⟨0, 1, 0, 1, none⟩, [⟨0, 0⟩], .flow⟩

/-- Same configuration with `maxIterations = 0`. -/
def cfg4z : ColonizationConfig := ⟨⟨0, 1, 0, 0, none⟩, [⟨0, 0⟩], .flow⟩

def att4 : List Attractor := [⟨0, ⟨0, 0⟩, true⟩]

theorem c4_witness : (⟨0, ⟨0, 0⟩, false⟩ : Attractor).active = false :=
  c4_kill_distance_inactive cfg4 O0 att4 (by decide) ⟨0, ⟨0, 0⟩, false⟩ (by decide)
    ⟨⟨0, ⟨0, 0⟩, none, [], 0, 1, ⟨1, 0, 0⟩⟩, by decide, by decide⟩

/-- **C4 (counterexample).** With `maxIterations = 0` the loop body (and so
the kill sweep) never runs: an attractor sitting on the seed node, well
within `killDistance`, is still active after `run()`. -/
theorem c4_counterexample :
    ∃ a ∈ (runSC cfg4z O0 att4).2.attractors,
      (∃ nd ∈ (runSC cfg4z O0 att4).1.nodes,
          vec2Distance O0.sqrtQ nd.position a.position < cfg4z.parameters.killDistance) ∧
      a.active = true := by decide

/-! ## Degenerate inputs (C8) -/

theorem associate_nil (O : MathOracle) (ad : ℚ) (atts : List Attractor) :
    associateAttractors O ad atts [] = [] := by
  induction atts with
  | nil => rfl
  | cons a atts ih => exact ih

theorem doIteration_nodes_nil (cfg : ColonizationConfig) (O : MathOracle)
    (s : SCState) (h : s.nodes = []) : (doIteration cfg O s).nodes = [] := by
  simp only [doIteration]
  rw [h]
  rw [show resetInfluence [] = [] from rfl, associate_nil]
  rfl

theorem strahlerRun_nil : strahlerRun [] [] = ⟨[], []⟩ := rfl

theorem buildGraph_nil (cfg : ColonizationConfig) (s : SCState) (h : s.nodes = []) :
    (buildGraph cfg s).nodes = [] ∧ (buildGraph cfg s).segments = [] ∧
    (buildGraph cfg s).roots = [] := by
  refine ⟨?_, ?_, ?_⟩
  · show updateThickness cfg.thicknessMode (strahlerRun (s.nodes.map _) _).nodes = []
    rw [h]
    cases cfg.thicknessMode <;> rfl
  · show (s.nodes.filter _).enum.map _ = []
    rw [h]
    rfl
  · show (s.nodes.filter _).map _ = []
    rw [h]
    rfl

theorem runAux_no_attractors (cfg : ColonizationConfig) (O : MathOracle) :
    ∀ fuel iter, runAux cfg O fuel iter (initSCState cfg.seeds []) =
      initSCState cfg.seeds [] := by
  intro fuel iter
  cases fuel <;> rfl

theorem initSeeds_fields (seeds : List Vec2) :
    ∀ n ∈ initSeeds seeds, n.parent = none ∧ n.children = [] := by
  intro n hn
  obtain ⟨p, _, he⟩ := List.mem_map.mp hn
  rw [← he]
  exact ⟨rfl, rfl⟩

/-- **C8.** Degenerate inputs yield valid minimal graphs: zero seeds give
empty node/segment/root tables; zero attractors leave exactly the seed
nodes (at the seed positions, parentless, childless, all roots, no
segments); the empty string interprets to the graph holding exactly the
single root node. -/
theorem c8_degenerate_inputs :
    (∀ (cfg : ColonizationConfig) (O : MathOracle) (atts : List Attractor),
        cfg.seeds = [] →
        (runSC cfg O atts).1.nodes = [] ∧ (runSC cfg O atts).1.segments = [] ∧
        (runSC cfg O atts).1.roots = []) ∧
    (∀ (cfg : ColonizationConfig) (O : MathOracle),
        (runSC cfg O []).1.nodes.map (fun n => n.position) = cfg.seeds ∧
        (∀ n ∈ (runSC cfg O []).1.nodes, n.parent = none ∧ n.children = []) ∧
        (runSC cfg O []).1.segments = [] ∧
        (runSC cfg O []).1.roots = (runSC cfg O []).1.nodes.map (fun n => n.id)) ∧
    (∀ (P : LSystemParameters) (O : MathOracle) (startPos : Vec2),
        (interpret P O [] startPos).nodes.map (fun n => (n.id, n.parent)) = [(0, none)] ∧
        (interpret P O [] startPos).roots = [0] ∧
        (interpret P O [] startPos).segments = []) := by
  refine ⟨?_, ?_, ?_⟩
  · intro cfg O atts hs
    have hnil : (runAux cfg O cfg.parameters.maxIterations 0
        (initSCState cfg.seeds atts)).nodes = [] := by
      apply runAux_preserve cfg O (Q := fun t => t.nodes = [])
        (fun t h => doIteration_nodes_nil cfg O t h) (fun t r h => h)
      show (initSeeds cfg.seeds) = []
      rw [hs]
      rfl
    exact buildGraph_nil cfg _ hnil
  · intro cfg O
    have hg : (runSC cfg O []).1 = buildGraph cfg (initSCState cfg.seeds []) := by
      show buildGraph cfg (runAux cfg O cfg.parameters.maxIterations 0
        (initSCState cfg.seeds [])) = _
      rw [runAux_no_attractors]
    rw [hg]
    have hproj := buildGraph_proj cfg (initSCState cfg.seeds [])
    refine ⟨?_, ?_, ?_, ?_⟩
    · have h1 := congrArg (List.map
        (fun t : ℕ × Vec2 × Option ℕ × List ℕ => t.2.1)) hproj
      rw [List.map_map, List.map_map] at h1
      have h2 : (buildGraph cfg (initSCState cfg.seeds [])).nodes.map
          (fun n => n.position) = (initSCState cfg.seeds []).nodes.map
          (fun n => n.position) := h1
      rw [h2]
      show (initSeeds cfg.seeds).map (fun n => n.position) = cfg.seeds
      unfold initSeeds
      rw [List.map_map]
      have : ((fun (n : InternalNode) => n.position) ∘ fun p : ℕ × Vec2 =>
          ({ id := p.1, position := p.2, parent := none, children := [],
             influenceDirection := ⟨0, 0⟩, influenceCount := 0 } : InternalNode)) =
          Prod.snd := rfl
      rw [this]
      exact List.enum_map_snd cfg.seeds
    · intro n hn
      obtain ⟨y, hy, he⟩ := mem_map_proj _ _ hproj n hn
      have hp : y.parent = n.parent := congrArg (fun t => t.2.2.1) he
      have hcy : y.children = n.children := congrArg (fun t => t.2.2.2) he
      have := initSeeds_fields cfg.seeds y hy
      exact ⟨hp ▸ this.1, hcy ▸ this.2⟩
    · show ((initSCState cfg.seeds []).nodes.filter _).enum.map _ = []
      have : (initSCState cfg.seeds []).nodes.filter (fun n => n.parent.isSome) = [] := by
        rw [List.filter_eq_nil]
        intro n hn
        have := (initSeeds_fields cfg.seeds n hn).1
        simp [this]
      rw [this]
      rfl
    · have hid := congrArg (List.map
        (fun t : ℕ × Vec2 × Option ℕ × List ℕ => t.1)) hproj
      rw [List.map_map, List.map_map] at hid
      have h2 : (buildGraph cfg (initSCState cfg.seeds [])).nodes.map (fun n => n.id) =
          (initSCState cfg.seeds []).nodes.map (fun n => n.id) := hid
      rw [h2]
      show ((initSCState cfg.seeds []).nodes.filter _).map _ = _
      have : (initSCState cfg.seeds []).nodes.filter (fun n => n.parent == none) =
          (initSCState cfg.seeds []).nodes := by
        rw [List.filter_eq_self]
        intro n hn
        have := (initSeeds_fields cfg.seeds n hn).1
        simp [this]
      rw [this]
  · intro P O startPos
    exact ⟨rfl, rfl, rfl⟩

def cfgE : ColonizationConfig := ⟨⟨0, 0, 0, 3, none⟩, [], .constant⟩

theorem c8_witness :
    cfgE.seeds = [] ∧ (runSC cfgE O0 att4).1.nodes = [] ∧
    (runSC cfgE O0 att4).1.roots = [] :=
  ⟨rfl, (c8_degenerate_inputs.1 cfgE O0 att4 rfl).1,
   (c8_degenerate_inputs.1 cfgE O0 att4 rfl).2.2⟩


/-! ## Graph consistency (C1) -/

/-- Every non-root node's parent is present in the node table and lists the
node among its children. -/
def NodesLinked (nodes : List BranchNode) : Prop :=
  ∀ n ∈ nodes, ∀ pid, n.parent = some pid →
    ∃ p ∈ nodes, p.id = pid ∧ n.id ∈ p.children

/-- Every segment's endpoints are present in the node table. -/
def SegmentsClosed (nodes : List BranchNode) (segments : List BranchSegment) : Prop :=
  ∀ sg ∈ segments, (∃ p ∈ nodes, p.id = sg.start) ∧ (∃ q ∈ nodes, q.id = sg.stop)

/-- A branch graph with consistent parent/child links and segment
endpoints. -/
def GraphConsistent (g : BranchGraph) : Prop :=
  NodesLinked g.nodes ∧ SegmentsClosed g.nodes g.segments

/-- Shape of the draw step when the cursor is detached: the fresh node is
appended with no parent, no link, no segment. -/
theorem stepForwardDraw_none (param : Option ℚ) (s : TIState)
    (hcase : s.st.nodeId = none) :
    ∃ pos bnd attrs,
      stepForwardDraw param s =
        { s with
          nodes := s.nodes ++
            [{ id := s.nextId, position := pos, parent := none, children := [],
               depth := s.st.depth, order := 0, attributes := attrs }],
          bounds := bnd,
          st := { s.st with position := pos, nodeId := some s.nextId },
          age := s.age + 1, nextId := s.nextId + 1 } := by
  refine ⟨vec2Add s.st.position
      ⟨s.st.heading.x * (param.getD s.currentStepLength),
       s.st.heading.y * (param.getD s.currentStepLength)⟩,
    expandBounds s.bounds (vec2Add s.st.position
      ⟨s.st.heading.x * (param.getD s.currentStepLength),
       s.st.heading.y * (param.getD s.currentStepLength)⟩),
    ⟨s.st.width, min 1 ((s.st.depth : ℚ) * (1 / 10)), (s.age : ℚ)⟩, ?_⟩
  unfold stepForwardDraw
  rw [hcase]

/-- Shape of the draw step with an attached cursor: the fresh node is
appended as a child of the cursor node and a segment is created. -/
theorem stepForwardDraw_some (param : Option ℚ) (s : TIState) (pid : ℕ)
    (hcase : s.st.nodeId = some pid) :
    ∃ pos bnd attrs,
      stepForwardDraw param s =
        { s with
          nodes := pushChild
            (s.nodes ++
              [{ id := s.nextId, position := pos, parent := some pid, children := [],
                 depth := s.st.depth, order := 0, attributes := attrs }])
            pid s.nextId,
          segments := s.segments ++
            [{ id := s.nextSegId, start := pid, stop := s.nextId }],
          bounds := bnd,
          st := { s.st with position := pos, nodeId := some s.nextId },
          age := s.age + 1, nextId := s.nextId + 1, nextSegId := s.nextSegId + 1 } := by
  refine ⟨vec2Add s.st.position
      ⟨s.st.heading.x * (param.getD s.currentStepLength),
       s.st.heading.y * (param.getD s.currentStepLength)⟩,
    expandBounds s.bounds (vec2Add s.st.position
      ⟨s.st.heading.x * (param.getD s.currentStepLength),
       s.st.heading.y * (param.getD s.currentStepLength)⟩),
    ⟨s.st.width, min 1 ((s.st.depth : ℚ) * (1 / 10)), (s.age : ℚ)⟩, ?_⟩
  unfold stepForwardDraw
  rw [hcase]

/-- The loop invariant of the turtle interpreter: the node table holds
ids 0..nextId-1 in insertion order, links are consistent, children are
strictly younger than their parent and present, parents strictly older,
and the cursor and every stacked cursor point into the table. -/
def TInv (s : TIState) : Prop :=
  (s.nodes.map (fun n => n.id) = List.range s.nextId) ∧
  NodesLinked s.nodes ∧
  SegmentsClosed s.nodes s.segments ∧
  (∀ n ∈ s.nodes, ∀ c ∈ n.children, n.id < c ∧ c < s.nextId) ∧
  (∀ n ∈ s.nodes, ∀ pid, n.parent = some pid → pid < n.id) ∧
  (∀ k, s.st.nodeId = some k → k < s.nextId) ∧
  (∀ t ∈ s.stack, ∀ k, t.nodeId = some k → k < s.nextId)

theorem fresh_of_ids {l : List BranchNode} {m : ℕ}
    (h : l.map (fun n => n.id) = List.range m) : ∀ n ∈ l, n.id < m := by
  intro n hn
  have hmem : n.id ∈ l.map (fun n => n.id) := List.mem_map_of_mem _ hn
  rw [h, List.mem_range] at hmem
  exact hmem

theorem exists_of_ids {l : List BranchNode} {m k : ℕ}
    (h : l.map (fun n => n.id) = List.range m) (hk : k < m) :
    ∃ p ∈ l, p.id = k := by
  have hmem : k ∈ l.map (fun n => n.id) := by
    rw [h, List.mem_range]
    exact hk
  obtain ⟨p, hp, he⟩ := List.mem_map.mp hmem
  exact ⟨p, hp, he⟩

theorem pushChild_ids (l : List BranchNode) (pid cid : ℕ) :
    (pushChild l pid cid).map (fun n => n.id) = l.map (fun n => n.id) := by
  unfold pushChild
  rw [List.map_map]
  apply List.map_congr_left
  intro n _
  by_cases h : n.id = pid <;> simp [h]

theorem exists_id_pushChild {l : List BranchNode} {pid cid i : ℕ}
    (h : ∃ p ∈ l, p.id = i) : ∃ p ∈ pushChild l pid cid, p.id = i := by
  obtain ⟨p, hp, he⟩ := h
  refine ⟨if p.id = pid then { p with children := p.children ++ [cid] } else p,
    List.mem_map_of_mem _ hp, ?_⟩
  by_cases hpi : p.id = pid
  · rw [if_pos hpi]
    exact he
  · rw [if_neg hpi]
    exact he

/-- `turtleStep` preserves the invariant. -/
theorem turtleStep_TInv (P : LSystemParameters) (O : MathOracle) (c : Char)
    (param : Option ℚ) (s : TIState) (h : TInv s) :
    TInv (turtleStep P O c param s) := by
  obtain ⟨hids, hlink, hseg, hchild, hpar, hcur, hstk⟩ := h
  rcases turtleStep_cases P O c param s with hF | hPush | ⟨t, hlast, hPop⟩ |
    ⟨pos, hd, w, csl, ridx, nid, hnid, hGen⟩
  · -- draw case
    rw [hF]
    cases hcase : s.st.nodeId with
    | none =>
        obtain ⟨pos, bnd, attrs, heq⟩ := stepForwardDraw_none param s hcase
        rw [heq]
        unfold TInv
        dsimp only
        refine ⟨?_, ?_, ?_, ?_, ?_, ?_, ?_⟩
        · show (s.nodes ++ [_]).map _ = List.range (s.nextId + 1)
          rw [List.map_append, hids, List.range_succ]
          rfl
        · intro n hn pid hp
          rcases List.mem_append.mp hn with hn | hn
          · obtain ⟨p, hpm, hpe⟩ := hlink n hn pid hp
            exact ⟨p, List.mem_append_left _ hpm, hpe⟩
          · rw [List.mem_singleton.mp hn] at hp
            simp at hp
        · intro sg hsg
          obtain ⟨⟨p, hpm, hpe⟩, ⟨q, hqm, hqe⟩⟩ := hseg sg hsg
          exact ⟨⟨p, List.mem_append_left _ hpm, hpe⟩,
                 ⟨q, List.mem_append_left _ hqm, hqe⟩⟩
        · intro n hn cc hcc
          rcases List.mem_append.mp hn with hn | hn
          · have := hchild n hn cc hcc
            exact ⟨this.1, by omega⟩
          · rw [List.mem_singleton.mp hn] at hcc
            simp at hcc
        · intro n hn pid hp
          rcases List.mem_append.mp hn with hn | hn
          · exact hpar n hn pid hp
          · rw [List.mem_singleton.mp hn] at hp
            simp at hp
        · intro k hk
          simp at hk
          omega
        · intro t ht k hk
          have := hstk t ht k hk
          omega
    | some pid =>
        have hpidlt : pid < s.nextId := hcur pid hcase
        obtain ⟨pos, bnd, attrs, heq⟩ := stepForwardDraw_some param s pid hcase
        rw [heq]
        unfold TInv
        dsimp only
        refine ⟨?_, ?_, ?_, ?_, ?_, ?_, ?_⟩
        · show (pushChild (s.nodes ++ [_]) pid s.nextId).map _ = List.range (s.nextId + 1)
          rw [pushChild_ids, List.map_append, hids, List.range_succ]
          rfl
        · intro n hn pid' hp
          obtain ⟨x, hx, hxe⟩ := List.mem_map.mp hn
          rcases List.mem_append.mp hx with hx | hx
          · have hxp : n.parent = x.parent := by
              rw [← hxe]
              by_cases hxi : x.id = pid <;> simp [hxi]
            have hxid : n.id = x.id := by
              rw [← hxe]
              by_cases hxi : x.id = pid <;> simp [hxi]
            rw [hxp] at hp
            obtain ⟨p, hpm, hpe, hpc⟩ := hlink x hx pid' hp
            refine ⟨if p.id = pid then { p with children := p.children ++ [s.nextId] } else p,
                    List.mem_map_of_mem _ (List.mem_append_left _ hpm), ?_, ?_⟩
            · by_cases hpi : p.id = pid
              · rw [if_pos hpi]
                exact hpe
              · rw [if_neg hpi]
                exact hpe
            · rw [hxid]
              by_cases hpi : p.id = pid <;> simp [hpi]
              · exact Or.inl hpc
              · exact hpc
          · have hxn := List.mem_singleton.mp hx
            have hne : s.nextId ≠ pid := by omega
            have hnx : n = x := by
              rw [← hxe, hxn]
              simp [hne]
            have hpid' : pid' = pid := by
              rw [hnx, hxn] at hp
              simp at hp
              omega
            obtain ⟨p, hpm, hpe⟩ := exists_of_ids hids hpidlt
            refine ⟨if p.id = pid then { p with children := p.children ++ [s.nextId] } else p,
                    List.mem_map_of_mem _ (List.mem_append.mpr (Or.inl hpm)), ?_, ?_⟩
            · rw [if_pos hpe, hpid']
              exact hpe
            · rw [if_pos hpe, hnx, hxn]
              simp
        · intro sg hsg
          rcases List.mem_append.mp hsg with hsg | hsg
          · obtain ⟨h1, h2⟩ := hseg sg hsg
            constructor
            · apply exists_id_pushChild
              obtain ⟨p, hpm, hpe⟩ := h1
              exact ⟨p, List.mem_append_left _ hpm, hpe⟩
            · apply exists_id_pushChild
              obtain ⟨q, hqm, hqe⟩ := h2
              exact ⟨q, List.mem_append_left _ hqm, hqe⟩
          · rw [List.mem_singleton.mp hsg]
            constructor
            · apply exists_id_pushChild
              obtain ⟨p, hpm, hpe⟩ := exists_of_ids hids hpidlt
              exact ⟨p, List.mem_append_left _ hpm, hpe⟩
            · apply exists_id_pushChild
              exact ⟨_, List.mem_append_right _ (List.mem_singleton.mpr rfl), rfl⟩
        · intro n hn cc hcc
          obtain ⟨x, hx, hxe⟩ := List.mem_map.mp hn
          rcases List.mem_append.mp hx with hx | hx
          · have hxfresh := fresh_of_ids hids x hx
            by_cases hxi : x.id = pid
            · rw [← hxe] at hcc ⊢
              simp [hxi] at hcc ⊢
              rcases hcc with hcc | hcc
              · have := hchild x hx cc hcc
                omega
              · omega
            · rw [← hxe] at hcc ⊢
              simp [hxi] at hcc ⊢
              have := hchild x hx cc hcc
              omega
          · rw [List.mem_singleton.mp hx] at hxe
            have hne : s.nextId ≠ pid := by omega
            rw [← hxe] at hcc
            simp [hne] at hcc
        · intro n hn pid' hp
          obtain ⟨x, hx, hxe⟩ := List.mem_map.mp hn
          have hxp : n.parent = x.parent := by
            rw [← hxe]
            by_cases hxi : x.id = pid <;> simp [hxi]
          have hxid : n.id = x.id := by
            rw [← hxe]
            by_cases hxi : x.id = pid <;> simp [hxi]
          rw [hxp] at hp
          rw [hxid]
          rcases List.mem_append.mp hx with hx | hx
          · exact hpar x hx pid' hp
          · rw [List.mem_singleton.mp hx]
            rw [List.mem_singleton.mp hx] at hp
            simp at hp
            simp [← hp]
            omega
        · intro k hk
          simp at hk
          omega
        · intro t ht k hk
          have := hstk t ht k hk
          omega
  · -- push case
    rw [hPush]
    refine ⟨hids, hlink, hseg, hchild, hpar, hcur, ?_⟩
    intro t ht k hk
    rcases List.mem_append.mp ht with ht | ht
    · exact hstk t ht k hk
    · rw [List.mem_singleton.mp ht] at hk
      exact hcur k hk
  · -- pop case
    rw [hPop]
    refine ⟨hids, hlink, hseg, hchild, hpar, ?_, ?_⟩
    · intro k hk
      have htm : t ∈ s.stack := by
        obtain ⟨hne, he⟩ := List.mem_getLast?_eq_getLast (Option.mem_def.mpr hlast)
        rw [he]
        exact List.getLast_mem hne
      exact hstk t htm k hk
    · intro t' ht' k hk
      exact hstk t' (List.mem_of_mem_dropLast ht') k hk
  · -- generic non-structural case
    rw [hGen]
    refine ⟨hids, hlink, hseg, hchild, hpar, ?_, hstk⟩
    intro k hk
    rcases hnid with hnid | hnid
    · rw [hnid] at hk
      exact hcur k hk
    · rw [hnid] at hk
      simp at hk


theorem initTIState_TInv (P : LSystemParameters) (startPos : Vec2) :
    TInv (initTIState P startPos) := by
  refine ⟨rfl, ?_, ?_, ?_, ?_, ?_, ?_⟩
  · intro n hn pid hp
    rw [List.mem_singleton.mp hn] at hp
    simp at hp
  · intro sg hsg
    simp [initTIState] at hsg
  · intro n hn cc hcc
    rw [List.mem_singleton.mp hn] at hcc
    simp at hcc
  · intro n hn pid hp
    rw [List.mem_singleton.mp hn] at hp
    simp at hp
  · intro k hk
    simp [initTIState] at hk ⊢
    omega
  · intro t ht k hk
    simp [initTIState] at ht

theorem interpretLoop_TInv (P : LSystemParameters) (O : MathOracle)
    (input : List Char) (startPos : Vec2) :
    TInv (interpretLoop P O input (initTIState P startPos)) :=
  interpretLoopF_preserve P O (fun c p s h => turtleStep_TInv P O c p s h)
    input.length input _ (initTIState_TInv P startPos)

theorem NodesLinked_of_proj {l l' : List BranchNode}
    (h : l'.map (fun n => (n.id, n.parent, n.children)) =
         l.map (fun n => (n.id, n.parent, n.children)))
    (hl : NodesLinked l) : NodesLinked l' := by
  intro n hn pid hp
  obtain ⟨y, hy, hye⟩ := mem_map_proj _ _ h n hn
  have hid : y.id = n.id := congrArg Prod.fst hye
  have hparent : y.parent = n.parent := congrArg (fun t => t.2.1) hye
  obtain ⟨p, hpm, hpe, hpc⟩ := hl y hy pid (by rw [hparent, hp])
  obtain ⟨p', hp'm, hp'e⟩ := mem_map_proj _ _ h.symm p hpm
  refine ⟨p', hp'm, ?_, ?_⟩
  · rw [show p'.id = p.id from congrArg Prod.fst hp'e]
    exact hpe
  · rw [show p'.children = p.children from congrArg (fun t => t.2.2) hp'e, ← hid]
    exact hpc

theorem SegmentsClosed_of_proj {l l' : List BranchNode} {segs : List BranchSegment}
    (h : l'.map (fun n => (n.id, n.parent, n.children)) =
         l.map (fun n => (n.id, n.parent, n.children)))
    (hs : SegmentsClosed l segs) : SegmentsClosed l' segs := by
  intro sg hsg
  obtain ⟨⟨p, hpm, hpe⟩, ⟨q, hqm, hqe⟩⟩ := hs sg hsg
  obtain ⟨p', hp'm, hp'e⟩ := mem_map_proj _ _ h.symm p hpm
  obtain ⟨q', hq'm, hq'e⟩ := mem_map_proj _ _ h.symm q hqm
  exact ⟨⟨p', hp'm, by rw [show p'.id = p.id from congrArg Prod.fst hp'e]; exact hpe⟩,
         ⟨q', hq'm, by rw [show q'.id = q.id from congrArg Prod.fst hq'e]; exact hqe⟩⟩

/-- The order/thickness passes keep the link projection of the turtle's
final table. -/
theorem interpret_nodes_proj (P : LSystemParameters) (O : MathOracle)
    (input : List Char) (startPos : Vec2) :
    (interpret P O input startPos).nodes.map (fun n => (n.id, n.parent, n.children)) =
      (interpretLoop P O input (initTIState P startPos)).nodes.map
        (fun n => (n.id, n.parent, n.children)) := by
  show (updateThicknessLS P (strahlerRun _ _).nodes).map _ = _
  rw [map_proj_strip stripThick (fun n => (n.id, n.parent, n.children))
      (fun n => rfl) (updateThicknessLS_strip _ _)]
  rw [map_proj_strip stripOrder (fun n => (n.id, n.parent, n.children))
      (fun n => rfl) (strahlerRun_strip _ _)]

theorem interpret_consistent (P : LSystemParameters) (O : MathOracle)
    (input : List Char) (startPos : Vec2) :
    GraphConsistent (interpret P O input startPos) := by
  have hinv := interpretLoop_TInv P O input startPos
  obtain ⟨hids, hlink, hseg, hchild, hpar, hcur, hstk⟩ := hinv
  have hproj := interpret_nodes_proj P O input startPos
  constructor
  · exact NodesLinked_of_proj hproj hlink
  · show SegmentsClosed _ (interpretLoop P O input (initTIState P startPos)).segments
    exact SegmentsClosed_of_proj hproj hseg

/-! ## Colonization loop invariant (C1, colonization side) -/

/-- Parent/child link consistency of the internal node table. -/
def INodesLinked (nodes : List InternalNode) : Prop :=
  ∀ n ∈ nodes, ∀ pid, n.parent = some pid →
    ∃ p ∈ nodes, p.id = pid ∧ n.id ∈ p.children

/-- Invariant of the solver's node table: ids are `0..nextId-1` in
insertion order, links are consistent, children are strictly younger and
below the counter, parents strictly older. -/
def TableOK (nodes : List InternalNode) (nextId : ℕ) : Prop :=
  (nodes.map (fun n => n.id) = List.range nextId) ∧
  INodesLinked nodes ∧
  (∀ n ∈ nodes, ∀ c ∈ n.children, n.id < c ∧ c < nextId) ∧
  (∀ n ∈ nodes, ∀ pid, n.parent = some pid → pid < n.id)

def SCInv (s : SCState) : Prop := TableOK s.nodes s.nextId

theorem ifresh_of_ids {l : List InternalNode} {m : ℕ}
    (h : l.map (fun n => n.id) = List.range m) : ∀ n ∈ l, n.id < m := by
  intro n hn
  have hmem : n.id ∈ l.map (fun n => n.id) := List.mem_map_of_mem _ hn
  rw [h, List.mem_range] at hmem
  exact hmem

theorem resetInfluence_proj (l : List InternalNode) :
    (resetInfluence l).map (fun n => (n.id, n.parent, n.children)) =
      l.map (fun n => (n.id, n.parent, n.children)) := by
  unfold resetInfluence
  rw [List.map_map]
  rfl

theorem map_update_proj {γ : Type} (proj : InternalNode → γ)
    (g : InternalNode → InternalNode) (hg : ∀ n, proj (g n) = proj n)
    (l : List InternalNode) : (l.map g).map proj = l.map proj := by
  rw [List.map_map]
  apply List.map_congr_left
  intro n _
  exact hg n

theorem associate_proj (O : MathOracle) (ad : ℚ) :
    ∀ (atts : List Attractor) (l : List InternalNode),
      (associateAttractors O ad atts l).map (fun n => (n.id, n.parent, n.children)) =
        l.map (fun n => (n.id, n.parent, n.children)) := by
  intro atts
  induction atts with
  | nil => intro l; rfl
  | cons a atts ih =>
      intro l
      show (associateAttractors O ad atts _).map _ = _
      rw [ih]
      dsimp only
      cases hcl : closestNodeId O ad l a.position with
      | none => rfl
      | some nid =>
          exact map_update_proj _ _ (fun n => by by_cases h : n.id = nid <;> simp [h]) l

theorem INodesLinked_of_proj {l l' : List InternalNode}
    (h : l'.map (fun n => (n.id, n.parent, n.children)) =
         l.map (fun n => (n.id, n.parent, n.children)))
    (hl : INodesLinked l) : INodesLinked l' := by
  intro n hn pid hp
  obtain ⟨y, hy, hye⟩ := mem_map_proj _ _ h n hn
  have hid : y.id = n.id := congrArg Prod.fst hye
  have hparent : y.parent = n.parent := congrArg (fun t => t.2.1) hye
  obtain ⟨p, hpm, hpe, hpc⟩ := hl y hy pid (by rw [hparent, hp])
  obtain ⟨p', hp'm, hp'e⟩ := mem_map_proj _ _ h.symm p hpm
  refine ⟨p', hp'm, ?_, ?_⟩
  · rw [show p'.id = p.id from congrArg Prod.fst hp'e]
    exact hpe
  · rw [show p'.children = p.children from congrArg (fun t => t.2.2) hp'e, ← hid]
    exact hpc

theorem TableOK_of_proj {l l' : List InternalNode} {m : ℕ}
    (h : l'.map (fun n => (n.id, n.parent, n.children)) =
         l.map (fun n => (n.id, n.parent, n.children)))
    (hl : TableOK l m) : TableOK l' m := by
  obtain ⟨hids, hlink, hchild, hpar⟩ := hl
  refine ⟨?_, INodesLinked_of_proj h hlink, ?_, ?_⟩
  · have h2 := congrArg (List.map (fun t : ℕ × Option ℕ × List ℕ => t.1)) h
    rw [List.map_map, List.map_map] at h2
    rw [show ((fun t : ℕ × Option ℕ × List ℕ => t.1) ∘
        (fun n : InternalNode => (n.id, n.parent, n.children))) =
        (fun n : InternalNode => n.id) from rfl] at h2
    rw [h2]
    exact hids
  · intro n hn c hc
    obtain ⟨y, hy, hye⟩ := mem_map_proj _ _ h n hn
    have hid : y.id = n.id := congrArg Prod.fst hye
    have hch : y.children = n.children := congrArg (fun t => t.2.2) hye
    have := hchild y hy c (by rw [hch]; exact hc)
    omega
  · intro n hn pid hp
    obtain ⟨y, hy, hye⟩ := mem_map_proj _ _ h n hn
    have hid : y.id = n.id := congrArg Prod.fst hye
    have hparent : y.parent = n.parent := congrArg (fun t => t.2.1) hye
    have := hpar y hy pid (by rw [hparent, hp])
    omega

/-- Full behavioural description of the growth fold: the id counter only
advances, the updated nodes keep the old id sequence, every updated node
matches an old node up to at most one appended fresh child, every old
node has such an updated image, and the new nodes carry exactly the
freshly allocated ids, childless, each hooked under an updated node. -/
theorem growNodes_spec (O : MathOracle) (ss : ℚ) (gb : Option Vec2) :
    ∀ (l : List InternalNode) (nid : ℕ),
      (∀ n ∈ l, n.id < nid) →
      nid ≤ (growNodes O ss gb l nid).2.2 ∧
      ((growNodes O ss gb l nid).1.map (fun n => n.id) = l.map (fun n => n.id)) ∧
      (∀ u ∈ (growNodes O ss gb l nid).1, ∃ x ∈ l, u.id = x.id ∧ u.parent = x.parent ∧
        (u.children = x.children ∨ ∃ cc, nid ≤ cc ∧ cc < (growNodes O ss gb l nid).2.2 ∧
          u.children = x.children ++ [cc])) ∧
      (∀ x ∈ l, ∃ u ∈ (growNodes O ss gb l nid).1, u.id = x.id ∧ u.parent = x.parent ∧
        (u.children = x.children ∨ ∃ cc, nid ≤ cc ∧ cc < (growNodes O ss gb l nid).2.2 ∧
          u.children = x.children ++ [cc])) ∧
      ((growNodes O ss gb l nid).2.1.map (fun n => n.id) =
        List.range' nid ((growNodes O ss gb l nid).2.2 - nid)) ∧
      (∀ nn ∈ (growNodes O ss gb l nid).2.1, nn.children = [] ∧ nid ≤ nn.id ∧
        nn.id < (growNodes O ss gb l nid).2.2 ∧
        ∃ u ∈ (growNodes O ss gb l nid).1, nn.parent = some u.id ∧ nn.id ∈ u.children) := by
  intro l
  induction l with
  | nil =>
      intro nid _
      refine ⟨le_refl _, rfl, ?_, ?_, ?_, ?_⟩
      · intro u hu
        simp [growNodes] at hu
      · intro x hx
        simp at hx
      · show List.map _ [] = List.range' nid (nid - nid)
        rw [Nat.sub_self]
        rfl
      · intro nn hnn
        simp [growNodes] at hnn
  | cons n rest ih =>
      intro nid hb
      have hbrest : ∀ x ∈ rest, x.id < nid := fun x hx => hb x (List.mem_cons_of_mem _ hx)
      by_cases hinf : 0 < n.influenceCount
      · have hbrest' : ∀ x ∈ rest, x.id < nid + 1 := fun x hx => by
          have := hbrest x hx
          omega
        obtain ⟨ih1, ih2, ih3, ih4, ih5, ih6⟩ := ih (nid + 1) hbrest'
        have h1 : (growNodes O ss gb (n :: rest) nid).1 =
            ({ n with children := n.children ++ [nid] } : InternalNode) ::
              (growNodes O ss gb rest (nid + 1)).1 := by
          simp only [growNodes]
          rw [if_pos hinf]
        have h3 : (growNodes O ss gb (n :: rest) nid).2.2 =
            (growNodes O ss gb rest (nid + 1)).2.2 := by
          simp only [growNodes]
          rw [if_pos hinf]
        have h2 : ∃ nn0 : InternalNode, nn0.id = nid ∧ nn0.parent = some n.id ∧
            nn0.children = [] ∧ (growNodes O ss gb (n :: rest) nid).2.1 =
              nn0 :: (growNodes O ss gb rest (nid + 1)).2.1 := by
          simp only [growNodes]
          rw [if_pos hinf]
          refine ⟨_, ?_, ?_, ?_, rfl⟩ <;> rfl
        obtain ⟨nn0, hn0id, hn0par, hn0ch, h2e⟩ := h2
        rw [h3, h2e, h1]
        refine ⟨by omega, ?_, ?_, ?_, ?_, ?_⟩
        · rw [List.map_cons, List.map_cons, ih2]
        · intro u hu
          rcases List.mem_cons.mp hu with hu | hu
          · refine ⟨n, List.mem_cons_self _ _, by rw [hu], by rw [hu], ?_⟩
            right
            exact ⟨nid, le_refl _, by omega, by rw [hu]⟩
          · obtain ⟨x, hx, he1, he2, he3⟩ := ih3 u hu
            refine ⟨x, List.mem_cons_of_mem _ hx, he1, he2, ?_⟩
            rcases he3 with he3 | ⟨cc, hcc1, hcc2, hcc3⟩
            · exact Or.inl he3
            · exact Or.inr ⟨cc, by omega, hcc2, hcc3⟩
        · intro x hx
          rcases List.mem_cons.mp hx with hx | hx
          · refine ⟨{ n with children := n.children ++ [nid] }, List.mem_cons_self _ _,
              by rw [hx], by rw [hx], ?_⟩
            right
            exact ⟨nid, le_refl _, by omega, by rw [hx]⟩
          · obtain ⟨u, hu, he1, he2, he3⟩ := ih4 x hx
            refine ⟨u, List.mem_cons_of_mem _ hu, he1, he2, ?_⟩
            rcases he3 with he3 | ⟨cc, hcc1, hcc2, hcc3⟩
            · exact Or.inl he3
            · exact Or.inr ⟨cc, by omega, hcc2, hcc3⟩
        · rw [List.map_cons, ih5, hn0id]
          rw [show (growNodes O ss gb rest (nid + 1)).2.2 - nid =
              ((growNodes O ss gb rest (nid + 1)).2.2 - (nid + 1)) + 1 by omega]
          rw [List.range'_succ]
        · intro nn hnn
          rcases List.mem_cons.mp hnn with hnn | hnn
          · subst hnn
            refine ⟨hn0ch, by omega, by omega, ?_⟩
            refine ⟨{ n with children := n.children ++ [nid] }, List.mem_cons_self _ _,
              ?_, ?_⟩
            · rw [hn0par]
            · rw [hn0id]
              simp
          · obtain ⟨hc1, hc2, hc3, u, hu, hc4, hc5⟩ := ih6 nn hnn
            exact ⟨hc1, by omega, hc3, u, List.mem_cons_of_mem _ hu, hc4, hc5⟩
      · obtain ⟨ih1, ih2, ih3, ih4, ih5, ih6⟩ := ih nid hbrest
        have h1 : (growNodes O ss gb (n :: rest) nid).1 =
            n :: (growNodes O ss gb rest nid).1 := by
          simp only [growNodes]
          rw [if_neg hinf]
        have h3 : (growNodes O ss gb (n :: rest) nid).2.2 =
            (growNodes O ss gb rest nid).2.2 := by
          simp only [growNodes]
          rw [if_neg hinf]
        have h2e : (growNodes O ss gb (n :: rest) nid).2.1 =
            (growNodes O ss gb rest nid).2.1 := by
          simp only [growNodes]
          rw [if_neg hinf]
        rw [h3, h2e, h1]
        refine ⟨ih1, ?_, ?_, ?_, ih5, ?_⟩
        · rw [List.map_cons, List.map_cons, ih2]
        · intro u hu
          rcases List.mem_cons.mp hu with hu | hu
          · exact ⟨n, List.mem_cons_self _ _, by rw [hu], by rw [hu], Or.inl (by rw [hu])⟩
          · obtain ⟨x, hx, he1, he2, he3⟩ := ih3 u hu
            exact ⟨x, List.mem_cons_of_mem _ hx, he1, he2, he3⟩
        · intro x hx
          rcases List.mem_cons.mp hx with hx | hx
          · exact ⟨n, List.mem_cons_self _ _, by rw [hx], by rw [hx], Or.inl (by rw [hx])⟩
          · obtain ⟨u, hu, he1, he2, he3⟩ := ih4 x hx
            exact ⟨u, List.mem_cons_of_mem _ hu, he1, he2, he3⟩
        · intro nn hnn
          obtain ⟨hc1, hc2, hc3, u, hu, hc4, hc5⟩ := ih6 nn hnn
          exact ⟨hc1, hc2, hc3, u, List.mem_cons_of_mem _ hu, hc4, hc5⟩

/-- Appending the grown children to the updated table keeps the table
invariant, against the advanced id counter. -/
theorem growAppend_TableOK (O : MathOracle) (ss : ℚ) (gb : Option Vec2)
    {l : List InternalNode} {N : ℕ} (h : TableOK l N) :
    TableOK ((growNodes O ss gb l N).1 ++ (growNodes O ss gb l N).2.1)
      (growNodes O ss gb l N).2.2 := by
  obtain ⟨hids, hlink, hchild, hpar⟩ := h
  have hbound := ifresh_of_ids hids
  obtain ⟨g1, g2, g3, g4, g5, g6⟩ := growNodes_spec O ss gb l N hbound
  obtain ⟨k, hk⟩ : ∃ k, (growNodes O ss gb l N).2.2 = N + k :=
    ⟨(growNodes O ss gb l N).2.2 - N, by omega⟩
  refine ⟨?_, ?_, ?_, ?_⟩
  · rw [List.map_append, g2, g5, hids, hk, Nat.add_sub_cancel_left, List.range_add,
      List.range'_eq_map_range]
  · intro n hn pid hp
    rcases List.mem_append.mp hn with hn | hn
    · obtain ⟨x, hx, he1, he2, _⟩ := g3 n hn
      obtain ⟨p, hpm, hpe, hpc⟩ := hlink x hx pid (by rw [← he2]; exact hp)
      obtain ⟨u, hu, hu1, hu2, hu3⟩ := g4 p hpm
      refine ⟨u, List.mem_append.mpr (Or.inl hu), by rw [hu1]; exact hpe, ?_⟩
      rw [he1]
      rcases hu3 with hu3 | ⟨cc, _, _, hcc⟩
      · rw [hu3]
        exact hpc
      · rw [hcc]
        exact List.mem_append.mpr (Or.inl hpc)
    · obtain ⟨_, _, _, u, hu, hc4, hc5⟩ := g6 n hn
      rw [hp] at hc4
      refine ⟨u, List.mem_append.mpr (Or.inl hu), ?_, hc5⟩
      exact ((Option.some.injEq _ _).mp hc4).symm
  · intro n hn c hc
    rcases List.mem_append.mp hn with hn | hn
    · obtain ⟨x, hx, he1, _, he3⟩ := g3 n hn
      have hx1 := hbound x hx
      rcases he3 with he3 | ⟨cc, hcc1, hcc2, hcc3⟩
      · rw [he3] at hc
        have := hchild x hx c hc
        omega
      · rw [hcc3] at hc
        rcases List.mem_append.mp hc with hc | hc
        · have := hchild x hx c hc
          omega
        · have hcn : c = cc := by simpa using hc
          omega
    · obtain ⟨hc1, _, _, _⟩ := g6 n hn
      rw [hc1] at hc
      simp at hc
  · intro n hn pid hp
    rcases List.mem_append.mp hn with hn | hn
    · obtain ⟨x, hx, he1, he2, _⟩ := g3 n hn
      have := hpar x hx pid (by rw [← he2]; exact hp)
      omega
    · obtain ⟨_, hc2, _, u, hu, hc4, _⟩ := g6 n hn
      obtain ⟨x, hx, he1, _, _⟩ := g3 u hu
      have := hbound x hx
      rw [hp] at hc4
      have hpu : pid = u.id := (Option.some.injEq _ _).mp hc4
      omega

/-- One growth iteration preserves the solver invariant. -/
theorem doIteration_SCInv (cfg : ColonizationConfig) (O : MathOracle) (s : SCState)
    (h : SCInv s) : SCInv (doIteration cfg O s) :=
  growAppend_TableOK O cfg.parameters.stepSize cfg.parameters.growthBias
    (TableOK_of_proj (by rw [associate_proj, resetInfluence_proj]) h)

/-- The conversion in `buildGraph` keeps ids, parents and children. -/
theorem buildGraph_links_proj (cfg : ColonizationConfig) (s : SCState) :
    (buildGraph cfg s).nodes.map (fun n => (n.id, n.parent, n.children)) =
      s.nodes.map (fun n => (n.id, n.parent, n.children)) := by
  have h := congrArg (List.map (fun t : ℕ × Vec2 × Option ℕ × List ℕ => (t.1, t.2.2)))
    (buildGraph_proj cfg s)
  rw [List.map_map, List.map_map] at h
  exact h

/-- Cross-type transport of link consistency from the internal table to a
branch-node table with the same id/parent/children sequence. -/
theorem NodesLinked_of_iproj {l : List InternalNode} {l' : List BranchNode}
    (h : l'.map (fun n => (n.id, n.parent, n.children)) =
         l.map (fun n => (n.id, n.parent, n.children)))
    (hl : INodesLinked l) : NodesLinked l' := by
  intro n hn pid hp
  obtain ⟨y, hy, hye⟩ := mem_map_proj _ _ h n hn
  have hid : y.id = n.id := congrArg Prod.fst hye
  have hparent : y.parent = n.parent := congrArg (fun t => t.2.1) hye
  obtain ⟨p, hpm, hpe, hpc⟩ := hl y hy pid (by rw [hparent, hp])
  obtain ⟨p', hp'm, hp'e⟩ := mem_map_proj _ _ h.symm p hpm
  refine ⟨p', hp'm, ?_, ?_⟩
  · rw [show p'.id = p.id from congrArg Prod.fst hp'e]
    exact hpe
  · rw [show p'.children = p.children from congrArg (fun t => t.2.2) hp'e, ← hid]
    exact hpc

theorem exists_id_of_iproj {l : List InternalNode} {l' : List BranchNode}
    (h : l'.map (fun n => (n.id, n.parent, n.children)) =
         l.map (fun n => (n.id, n.parent, n.children))) :
    ∀ y ∈ l, ∃ b ∈ l', b.id = y.id := by
  intro y hy
  obtain ⟨b, hb, hbe⟩ := mem_map_proj _ _ h.symm y hy
  exact ⟨b, hb, congrArg Prod.fst hbe⟩

/-- Any solver state satisfying the invariant builds a consistent graph. -/
theorem buildGraph_consistent (cfg : ColonizationConfig) (s : SCState)
    (h : SCInv s) : GraphConsistent (buildGraph cfg s) := by
  obtain ⟨hids, hlink, hchild, hpar⟩ := h
  have hproj := buildGraph_links_proj cfg s
  constructor
  · exact NodesLinked_of_iproj hproj hlink
  · intro sg hsg
    have hseg : (buildGraph cfg s).segments =
        (s.nodes.filter (fun n => n.parent.isSome)).enum.map (fun p =>
          ({ id := p.1, start := p.2.parent.getD 0, stop := p.2.id } : BranchSegment)) :=
      rfl
    rw [hseg] at hsg
    obtain ⟨p, hp, hpe⟩ := List.mem_map.mp hsg
    have hsnd : p.2 ∈ s.nodes.filter (fun n => n.parent.isSome) := by
      have h2 := List.mem_map_of_mem Prod.snd hp
      rw [List.enum_map_snd] at h2
      exact h2
    obtain ⟨hmem, hps⟩ := List.mem_filter.mp hsnd
    obtain ⟨pid, hpid⟩ := Option.isSome_iff_exists.mp (by simpa using hps)
    obtain ⟨q, hq, hqid, _⟩ := hlink p.2 hmem pid hpid
    constructor
    · obtain ⟨b, hb, hbe⟩ := exists_id_of_iproj hproj q hq
      refine ⟨b, hb, ?_⟩
      rw [hbe, hqid, ← hpe]
      show pid = p.2.parent.getD 0
      rw [hpid]
      rfl
    · obtain ⟨b, hb, hbe⟩ := exists_id_of_iproj hproj p.2 hmem
      refine ⟨b, hb, ?_⟩
      rw [hbe, ← hpe]

theorem initSCState_SCInv (seeds : List Vec2) (atts : List Attractor) :
    SCInv (initSCState seeds atts) := by
  refine ⟨?_, ?_, ?_, ?_⟩
  · show (List.map _ (initSeeds seeds)) = List.range seeds.length
    unfold initSeeds
    rw [List.map_map, ← List.enum_map_fst seeds]
    apply List.map_congr_left
    intro p _
    rfl
  · intro n hn pid hp
    have := (initSeeds_fields seeds n hn).1
    rw [this] at hp
    simp at hp
  · intro n hn c hc
    have := (initSeeds_fields seeds n hn).2
    rw [this] at hc
    simp at hc
  · intro n hn pid hp
    have := (initSeeds_fields seeds n hn).1
    rw [this] at hp
    simp at hp

/-- The whole growth loop keeps the invariant and only ever records
consistent progress graphs. -/
theorem runAux_SCInv_reports (cfg : ColonizationConfig) (O : MathOracle) :
    ∀ fuel iter s, SCInv s → (∀ r ∈ s.reports, GraphConsistent r.2) →
      SCInv (runAux cfg O fuel iter s) ∧
        ∀ r ∈ (runAux cfg O fuel iter s).reports, GraphConsistent r.2 := by
  intro fuel
  induction fuel with
  | zero => intro iter s h1 h2; exact ⟨h1, h2⟩
  | succ fuel ih =>
      intro iter s h1 h2
      simp only [runAux]
      split
      · exact ⟨h1, h2⟩
      · have hs1 : SCInv (doIteration cfg O s) := doIteration_SCInv cfg O s h1
        split
        · apply ih
          · exact hs1
          · intro r hr
            rcases List.mem_append.mp hr with hr | hr
            · exact h2 r hr
            · have hre : r = (iter, buildGraph cfg (doIteration cfg O s)) := by
                simpa using hr
              rw [hre]
              exact buildGraph_consistent cfg _ hs1
        · exact ih _ _ hs1 (fun r hr => h2 r hr)

/-- **C1.** Every branch graph produced by `TurtleInterpreter.interpret`
or `SpaceColonization.run` — including every partial graph handed to the
progress callback — has consistent links: every node with a non-null
parent has that parent present in the node table and its own id listed in
the parent's children array, and every segment's start/end ids refer to
nodes present in the node table. -/
theorem c1_graph_link_consistency :
    (∀ (P : LSystemParameters) (O : MathOracle) (input : List Char) (startPos : Vec2),
       GraphConsistent (interpret P O input startPos)) ∧
    (∀ (cfg : ColonizationConfig) (O : MathOracle) (atts : List Attractor),
       GraphConsistent (runSC cfg O atts).1 ∧
       ∀ r ∈ (runSC cfg O atts).2.reports, GraphConsistent r.2) := by
  constructor
  · exact interpret_consistent
  · intro cfg O atts
    have h := runAux_SCInv_reports cfg O cfg.parameters.maxIterations 0
      (initSCState cfg.seeds atts) (initSCState_SCInv cfg.seeds atts)
      (by intro r hr; simp [initSCState] at hr)
    exact ⟨buildGraph_consistent cfg _ h.1, h.2⟩

theorem c1_witness :
    GraphConsistent (interpret P0 O0 (['F'] : List Char) ⟨0, 0⟩) ∧
    GraphConsistent (runSC cfgE O0 []).1 :=
  ⟨c1_graph_link_consistency.1 P0 O0 ['F'] ⟨0, 0⟩,
   (c1_graph_link_consistency.2 cfgE O0 []).1⟩

/-! ## Strahler pass correctness (C3)

`calculate(nodeId)` memoizes through the `calculated` set and mutates
`order` in place.  The invariant carried below: every calculated id names
a table node that already satisfies the Strahler equation, with all its
children calculated as well (so established equations can never be broken
by later `setOrder`s, which only hit uncalculated ids). -/

/-- `nodes.get(nodeId)!.order` with JS's 0-ish fallback for a missing
node, exactly the memo-hit expression of `calculate`. -/
def ordAt (nodes : List BranchNode) (i : ℕ) : ℕ :=
  ((getNode nodes i).map (·.order)).getD 0

/-- The Strahler equation at one node, over the final table: a leaf has
order 1; otherwise the order is the maximum child order, plus one exactly
when two or more children attain that maximum. -/
def StrahlerEqAt (nodes : List BranchNode) (n : BranchNode) : Prop :=
  if n.children.isEmpty then n.order = 1
  else
    n.order =
      (if 2 ≤ ((n.children.map (ordAt nodes)).filter
            (fun o => o == natMax (n.children.map (ordAt nodes)))).length
       then natMax (n.children.map (ordAt nodes)) + 1
       else natMax (n.children.map (ordAt nodes)))

/-- Structural facts both interpreters guarantee of the tables they hand
to the Strahler pass: ids are `0..N-1` in order, and children ids are
strictly larger than their parent's and below `N`. -/
def TableStruct (nodes : List BranchNode) (N : ℕ) : Prop :=
  (nodes.map (fun n => n.id) = List.range N) ∧
  (∀ n ∈ nodes, ∀ c ∈ n.children, n.id < c ∧ c < N)

/-- The memoization invariant of the `calculated` set. -/
def calcClosed (nodes : List BranchNode) (calced : List ℕ) : Prop :=
  ∀ i ∈ calced, ∃ n ∈ nodes, n.id = i ∧ StrahlerEqAt nodes n ∧
    ∀ c ∈ n.children, c ∈ calced

theorem getNode_mem {nodes : List BranchNode} {i : ℕ} {n : BranchNode}
    (h : getNode nodes i = some n) : n ∈ nodes ∧ n.id = i := by
  unfold getNode at h
  refine ⟨List.mem_of_find?_eq_some h, ?_⟩
  have := List.find?_some h
  simpa using this

theorem getNode_isSome {nodes : List BranchNode} {N i : ℕ}
    (hids : nodes.map (fun n => n.id) = List.range N) (hi : i < N) :
    ∃ n, getNode nodes i = some n := by
  obtain ⟨p, hp, hpe⟩ := exists_of_ids hids hi
  have : (List.find? (fun n => n.id == i) nodes).isSome :=
    List.find?_isSome.mpr ⟨p, hp, by simp [hpe]⟩
  exact Option.isSome_iff_exists.mp this

theorem getNode_eq_of_mem {nodes : List BranchNode} {N : ℕ}
    (hids : nodes.map (fun n => n.id) = List.range N) {n : BranchNode}
    (hn : n ∈ nodes) : getNode nodes n.id = some n := by
  have hnodup : (nodes.map (fun n => n.id)).Nodup := by
    rw [hids]
    exact List.nodup_range N
  have hlt : n.id < N := fresh_of_ids hids n hn
  obtain ⟨m, hm⟩ := getNode_isSome hids hlt
  obtain ⟨hmm, hmid⟩ := getNode_mem hm
  have heq : m = n := List.inj_on_of_nodup_map hnodup hmm hn hmid
  rw [hm, heq]

theorem getNode_setOrder_ne (nodes : List BranchNode) (i v c : ℕ) (h : c ≠ i) :
    getNode (setOrder nodes i v) c = getNode nodes c := by
  unfold getNode setOrder
  rw [List.find?_map]
  have hp : ((fun n : BranchNode => n.id == c) ∘
      (fun n => if n.id = i then { n with order := v } else n)) =
      (fun n : BranchNode => n.id == c) := by
    funext n
    by_cases hn : n.id = i <;> simp [Function.comp, hn]
  rw [hp]
  cases hf : List.find? (fun n => n.id == c) nodes with
  | none => rfl
  | some m =>
      have hm : m.id = c := by simpa using List.find?_some hf
      show some (if m.id = i then { m with order := v } else m) = some m
      rw [if_neg (by rw [hm]; exact h)]

theorem getNode_setOrder_self (nodes : List BranchNode) (i v : ℕ)
    (m : BranchNode) (h : getNode nodes i = some m) :
    getNode (setOrder nodes i v) i = some { m with order := v } := by
  unfold getNode setOrder
  rw [List.find?_map]
  have hp : ((fun n : BranchNode => n.id == i) ∘
      (fun n => if n.id = i then { n with order := v } else n)) =
      (fun n : BranchNode => n.id == i) := by
    funext n
    by_cases hn : n.id = i <;> simp [Function.comp, hn]
  rw [hp]
  unfold getNode at h
  rw [h]
  have hm : m.id = i := by simpa using List.find?_some h
  show some (if m.id = i then { m with order := v } else m) = _
  rw [if_pos hm]

theorem ordAt_setOrder_ne (nodes : List BranchNode) (i v c : ℕ) (h : c ≠ i) :
    ordAt (setOrder nodes i v) c = ordAt nodes c := by
  unfold ordAt
  rw [getNode_setOrder_ne nodes i v c h]

theorem ordAt_setOrder_self (nodes : List BranchNode) (i v : ℕ)
    (m : BranchNode) (h : getNode nodes i = some m) :
    ordAt (setOrder nodes i v) i = v := by
  unfold ordAt
  rw [getNode_setOrder_self nodes i v m h]
  rfl

theorem TableStruct_of_strip {l l' : List BranchNode} {N : ℕ}
    (h : l'.map stripOrder = l.map stripOrder) (ht : TableStruct l N) :
    TableStruct l' N := by
  obtain ⟨hids, hch⟩ := ht
  constructor
  · rw [map_proj_strip stripOrder (fun n => n.id) (fun n => rfl) h]
    exact hids
  · intro n hn c hc
    obtain ⟨y, hy, hye⟩ := mem_map_proj stripOrder stripOrder h n hn
    have hid : y.id = n.id := by
      have h2 := congrArg BranchNode.id hye
      exact h2
    have hchl : y.children = n.children := by
      have h2 := congrArg BranchNode.children hye
      exact h2
    have := hch y hy c (by rw [hchl]; exact hc)
    omega

/-- A freshly set order at an id outside a node's children leaves that
node's Strahler equation intact. -/
theorem StrahlerEqAt_setOrder (nodes : List BranchNode) (i v : ℕ)
    (n : BranchNode) (hni : i ∉ n.children) (h : StrahlerEqAt nodes n) :
    StrahlerEqAt (setOrder nodes i v) n := by
  unfold StrahlerEqAt at h ⊢
  by_cases he : n.children.isEmpty = true
  · rw [if_pos he] at h ⊢
    exact h
  · rw [if_neg he] at h ⊢
    have hmap : n.children.map (ordAt (setOrder nodes i v)) =
        n.children.map (ordAt nodes) := by
      apply List.map_congr_left
      intro c hc
      exact ordAt_setOrder_ne nodes i v c (by rintro rfl; exact hni hc)
    rw [hmap]
    exact h

/-- The contract of one `calculate(nodeId)` call at a given fuel budget
(`ok` is the fuel-sufficiency condition): structure preserved, the
calculated set only grows and only by ids ≥ `nodeId`, already-calculated
orders are stable, the memoization invariant is kept, and the call leaves
`nodeId` calculated with its final order as return value. -/
def CalcSpec (N : ℕ) (f : ℕ → StrahlerState → StrahlerState × ℕ)
    (ok : ℕ → Prop) : Prop :=
  ∀ nodeId s, TableStruct s.nodes N → calcClosed s.nodes s.calculated →
    ok nodeId → nodeId < N →
    (f nodeId s).1.nodes.map stripOrder = s.nodes.map stripOrder ∧
    (∀ i ∈ s.calculated, i ∈ (f nodeId s).1.calculated) ∧
    (∀ i ∈ (f nodeId s).1.calculated, i ∈ s.calculated ∨ nodeId ≤ i) ∧
    (∀ i ∈ s.calculated, ordAt (f nodeId s).1.nodes i = ordAt s.nodes i) ∧
    calcClosed (f nodeId s).1.nodes (f nodeId s).1.calculated ∧
    nodeId ∈ (f nodeId s).1.calculated ∧
    (f nodeId s).2 = ordAt (f nodeId s).1.nodes nodeId

/-- `node.children.map(childId => calculate(childId))`: the fold of a
conforming `calculate` over ids above `lo` collects exactly the final
orders of those children and leaves them all calculated. -/
theorem strahlerFold_spec (N : ℕ) (f : ℕ → StrahlerState → StrahlerState × ℕ)
    (ok : ℕ → Prop) (hf : CalcSpec N f ok) :
    ∀ (cs : List ℕ) (lo : ℕ) (s : StrahlerState),
      TableStruct s.nodes N → calcClosed s.nodes s.calculated →
      (∀ c ∈ cs, lo < c ∧ c < N ∧ ok c) →
      (strahlerFold f cs s).1.nodes.map stripOrder = s.nodes.map stripOrder ∧
      (∀ i ∈ s.calculated, i ∈ (strahlerFold f cs s).1.calculated) ∧
      (∀ i ∈ (strahlerFold f cs s).1.calculated, i ∈ s.calculated ∨ lo < i) ∧
      (∀ i ∈ s.calculated, ordAt (strahlerFold f cs s).1.nodes i = ordAt s.nodes i) ∧
      calcClosed (strahlerFold f cs s).1.nodes (strahlerFold f cs s).1.calculated ∧
      (strahlerFold f cs s).2 = cs.map (ordAt (strahlerFold f cs s).1.nodes) ∧
      (∀ c ∈ cs, c ∈ (strahlerFold f cs s).1.calculated) := by
  intro cs
  induction cs with
  | nil =>
      intro lo s ht hc _
      refine ⟨rfl, fun i h => h, fun i h => Or.inl h, fun i _ => rfl, hc, rfl, ?_⟩
      intro c hc2
      simp at hc2
  | cons c cs ih =>
      intro lo s ht hc hb
      obtain ⟨hlo, hcN, hok⟩ := hb c (List.mem_cons_self _ _)
      have hbcs : ∀ x ∈ cs, lo < x ∧ x < N ∧ ok x :=
        fun x hx => hb x (List.mem_cons_of_mem _ hx)
      obtain ⟨a1, a2, a3, a4, a5, a6, a7⟩ := hf c s ht hc hok hcN
      have ht1 : TableStruct (f c s).1.nodes N := TableStruct_of_strip a1 ht
      obtain ⟨i1, i2, i3, i4, i5, i6, i7⟩ := ih lo (f c s).1 ht1 a5 hbcs
      have hfst : (strahlerFold f (c :: cs) s).1 = (strahlerFold f cs (f c s).1).1 := rfl
      have hsnd : (strahlerFold f (c :: cs) s).2 =
          (f c s).2 :: (strahlerFold f cs (f c s).1).2 := rfl
      rw [hfst, hsnd]
      refine ⟨i1.trans a1, ?_, ?_, ?_, i5, ?_, ?_⟩
      · intro i hi
        exact i2 i (a2 i hi)
      · intro i hi
        rcases i3 i hi with hi2 | hi2
        · rcases a3 i hi2 with hi3 | hi3
          · exact Or.inl hi3
          · exact Or.inr (by omega)
        · exact Or.inr hi2
      · intro i hi
        rw [i4 i (a2 i hi), a4 i hi]
      · rw [List.map_cons, i6, a7]
        rw [i4 c a6]
      · intro x hx
        rcases List.mem_cons.mp hx with hx | hx
        · rw [hx]
          exact i2 c a6
        · exact i7 x hx

/-- `calculate(nodeId)` meets its contract whenever the fuel covers the
longest possible child chain (`N + 1 - nodeId`; children ids strictly
increase, so chains from `nodeId` have at most `N - nodeId` further
nodes). -/
theorem strahlerCalc_spec (N : ℕ) :
    ∀ fuel, CalcSpec N (strahlerCalc fuel) (fun i => N + 1 ≤ fuel + i) := by
  intro fuel
  induction fuel with
  | zero =>
      intro nodeId s ht hc hok hlt
      exact absurd hok (by omega)
  | succ fuel ih =>
      intro nodeId s ht hc hok hlt
      by_cases hmem : s.calculated.contains nodeId = true
      · have heq : strahlerCalc (fuel + 1) nodeId s = (s, ordAt s.nodes nodeId) := by
          simp only [strahlerCalc]
          rw [if_pos hmem]
          rfl
        rw [heq]
        have hmem2 : nodeId ∈ s.calculated := by simpa using hmem
        exact ⟨rfl, fun i h => h, fun i h => Or.inl h, fun i _ => rfl, hc, hmem2, rfl⟩
      · have hnotmem : nodeId ∉ s.calculated := by simpa using hmem
        cases hg : getNode s.nodes nodeId with
        | none =>
            exfalso
            obtain ⟨m, hm⟩ := getNode_isSome ht.1 hlt
            rw [hg] at hm
            exact Option.noConfusion hm
        | some node =>
            obtain ⟨hnmem, hnid⟩ := getNode_mem hg
            by_cases hleaf : node.children.isEmpty = true
            · have heq : strahlerCalc (fuel + 1) nodeId s =
                  ({ nodes := setOrder s.nodes nodeId 1,
                     calculated := nodeId :: s.calculated }, 1) := by
                simp only [strahlerCalc]
                rw [if_neg hmem]
                simp only [hg]
                rw [if_pos hleaf]
              rw [heq]
              dsimp only
              have hle : node.children = [] := List.isEmpty_iff.mp hleaf
              refine ⟨?_, ?_, ?_, ?_, ?_, ?_, ?_⟩
              · exact setOrder_strip s.nodes nodeId 1
              · intro i hi
                exact List.mem_cons_of_mem _ hi
              · intro i hi
                rcases List.mem_cons.mp hi with hi | hi
                · exact Or.inr (by omega)
                · exact Or.inl hi
              · intro i hi
                exact ordAt_setOrder_ne s.nodes nodeId 1 i
                  (fun hcon => hnotmem (hcon ▸ hi))
              · intro i hi
                rcases List.mem_cons.mp hi with hi | hi
                · refine ⟨{ node with order := 1 }, ?_, ?_, ?_, ?_⟩
                  · unfold setOrder
                    refine List.mem_map.mpr ⟨node, hnmem, ?_⟩
                    rw [if_pos hnid]
                  · show node.id = i
                    rw [hnid, hi]
                  · unfold StrahlerEqAt
                    rw [if_pos (show ({ node with order := 1 } :
                        BranchNode).children.isEmpty = true from hleaf)]
                  · intro c hcc
                    rw [show ({ node with order := 1 } : BranchNode).children =
                        node.children from rfl, hle] at hcc
                    simp at hcc
                · obtain ⟨n, hn, hni, hns, hnc⟩ := hc i hi
                  have hne : n.id ≠ nodeId := by
                    intro hcon
                    rw [hni] at hcon
                    exact hnotmem (hcon ▸ hi)
                  refine ⟨n, ?_, hni, ?_, ?_⟩
                  · unfold setOrder
                    refine List.mem_map.mpr ⟨n, hn, ?_⟩
                    rw [if_neg hne]
                  · exact StrahlerEqAt_setOrder s.nodes nodeId 1 n
                      (fun hcon => hnotmem (hnc nodeId hcon)) hns
                  · intro c hcc
                    exact List.mem_cons_of_mem _ (hnc c hcc)
              · exact List.mem_cons_self _ _
              · exact (ordAt_setOrder_self s.nodes nodeId 1 node hg).symm
            · have hcb : ∀ c ∈ node.children, nodeId < c ∧ c < N ∧
                  N + 1 ≤ fuel + c := by
                intro c hcc
                have h3 := ht.2 node hnmem c hcc
                rw [hnid] at h3
                exact ⟨h3.1, h3.2, by omega⟩
              obtain ⟨f1, f2, f3, f4, f5, f6, f7⟩ :=
                strahlerFold_spec N (strahlerCalc fuel) _ ih node.children nodeId s ht hc hcb
              have hnotF : nodeId ∉
                  (strahlerFold (strahlerCalc fuel) node.children s).1.calculated := by
                intro hcon
                rcases f3 nodeId hcon with h | h
                · exact hnotmem h
                · omega
              have hFstruct : TableStruct
                  (strahlerFold (strahlerCalc fuel) node.children s).1.nodes N :=
                TableStruct_of_strip f1 ht
              obtain ⟨m, hmF, hms⟩ := mem_map_proj stripOrder stripOrder f1.symm node hnmem
              have hmid : m.id = nodeId := by
                have h2 := congrArg BranchNode.id hms
                have h3 : m.id = node.id := h2
                rw [h3, hnid]
              have hmch : m.children = node.children := by
                have h2 := congrArg BranchNode.children hms
                exact h2
              have hgm : getNode
                  (strahlerFold (strahlerCalc fuel) node.children s).1.nodes nodeId =
                    some m := by
                rw [← hmid]
                exact getNode_eq_of_mem hFstruct.1 hmF
              have h2 : ∃ ord : ℕ,
                  ord = (if 2 ≤ (((strahlerFold (strahlerCalc fuel) node.children s).2.filter
                        (fun o => o == natMax
                          (strahlerFold (strahlerCalc fuel) node.children s).2)).length)
                    then natMax (strahlerFold (strahlerCalc fuel) node.children s).2 + 1
                    else natMax (strahlerFold (strahlerCalc fuel) node.children s).2) ∧
                  strahlerCalc (fuel + 1) nodeId s =
                    ({ nodes := setOrder
                        (strahlerFold (strahlerCalc fuel) node.children s).1.nodes nodeId
                        (if 2 ≤ (((strahlerFold (strahlerCalc fuel) node.children s).2.filter
                              (fun o => o == natMax
                                (strahlerFold (strahlerCalc fuel) node.children s).2)).length)
                          then natMax (strahlerFold (strahlerCalc fuel) node.children s).2 + 1
                          else natMax (strahlerFold (strahlerCalc fuel) node.children s).2),
                       calculated := nodeId ::
                        (strahlerFold (strahlerCalc fuel) node.children s).1.calculated },
                     (if 2 ≤ (((strahlerFold (strahlerCalc fuel) node.children s).2.filter
                           (fun o => o == natMax
                             (strahlerFold (strahlerCalc fuel) node.children s).2)).length)
                       then natMax (strahlerFold (strahlerCalc fuel) node.children s).2 + 1
                       else natMax (strahlerFold (strahlerCalc fuel) node.children s).2)) := by
                refine ⟨_, rfl, ?_⟩
                simp only [strahlerCalc]
                rw [if_neg hmem]
                simp only [hg]
                rw [if_neg hleaf]
              obtain ⟨ord, hord, heq⟩ := h2
              rw [← hord] at heq
              rw [heq]
              dsimp only
              refine ⟨?_, ?_, ?_, ?_, ?_, ?_, ?_⟩
              · show (setOrder _ nodeId ord).map stripOrder = _
                exact (setOrder_strip _ nodeId ord).trans f1
              · intro i hi
                exact List.mem_cons_of_mem _ (f2 i hi)
              · intro i hi
                rcases List.mem_cons.mp hi with hi | hi
                · exact Or.inr (by omega)
                · rcases f3 i hi with h | h
                  · exact Or.inl h
                  · exact Or.inr (by omega)
              · intro i hi
                show ordAt (setOrder _ nodeId ord) i = _
                rw [ordAt_setOrder_ne _ nodeId ord i (fun hcon => hnotmem (hcon ▸ hi))]
                exact f4 i hi
              · intro i hi
                rcases List.mem_cons.mp hi with hi | hi
                · refine ⟨{ m with order := ord }, ?_, ?_, ?_, ?_⟩
                  · show _ ∈ setOrder _ nodeId ord
                    unfold setOrder
                    refine List.mem_map.mpr ⟨m, hmF, ?_⟩
                    rw [if_pos hmid]
                  · show m.id = i
                    rw [hmid, hi]
                  · unfold StrahlerEqAt
                    rw [if_neg (show ¬ (({ m with order := ord } :
                        BranchNode).children.isEmpty = true) by
                      rw [show ({ m with order := ord } : BranchNode).children =
                          node.children from hmch]
                      exact hleaf)]
                    show ord = _
                    have hmap : ({ m with order := ord } : BranchNode).children.map
                        (ordAt (setOrder
                          (strahlerFold (strahlerCalc fuel) node.children s).1.nodes
                          nodeId ord)) =
                        (strahlerFold (strahlerCalc fuel) node.children s).2 := by
                      rw [show ({ m with order := ord } : BranchNode).children =
                          node.children from hmch]
                      rw [f6]
                      apply List.map_congr_left
                      intro c hcc
                      exact ordAt_setOrder_ne _ nodeId ord c
                        (fun hcon => absurd (hcb c hcc).1 (by rw [hcon]; exact lt_irrefl _))
                    rw [hmap]
                    exact hord
                  · intro c hcc
                    rw [show ({ m with order := ord } : BranchNode).children =
                        node.children from hmch] at hcc
                    exact List.mem_cons_of_mem _ (f7 c hcc)
                · obtain ⟨n, hn, hni, hns, hnc⟩ := f5 i hi
                  have hne : n.id ≠ nodeId := by
                    intro hcon
                    rw [hni] at hcon
                    exact hnotF (hcon ▸ hi)
                  refine ⟨n, ?_, hni, ?_, ?_⟩
                  · show _ ∈ setOrder _ nodeId ord
                    unfold setOrder
                    refine List.mem_map.mpr ⟨n, hn, ?_⟩
                    rw [if_neg hne]
                  · exact StrahlerEqAt_setOrder _ nodeId ord n
                      (fun hcon => hnotF (hnc nodeId hcon)) hns
                  · intro c hcc
                    exact List.mem_cons_of_mem _ (hnc c hcc)
              · exact List.mem_cons_self _ _
              · show ord = ordAt (setOrder _ nodeId ord) nodeId
                exact (ordAt_setOrder_self _ nodeId ord m hgm).symm

/-- `roots.forEach(rootId => calculate(rootId))`, stepwise. -/
theorem strahlerRun_fold (N : ℕ) :
    ∀ (rs : List ℕ) (s : StrahlerState),
      TableStruct s.nodes N → calcClosed s.nodes s.calculated →
      (∀ r ∈ rs, r < N) →
      ((rs.foldl (fun s r => (strahlerCalc (s.nodes.length + 1) r s).1) s).nodes.map stripOrder
        = s.nodes.map stripOrder) ∧
      calcClosed
        (rs.foldl (fun s r => (strahlerCalc (s.nodes.length + 1) r s).1) s).nodes
        (rs.foldl (fun s r => (strahlerCalc (s.nodes.length + 1) r s).1) s).calculated ∧
      (∀ i ∈ s.calculated,
        i ∈ (rs.foldl (fun s r => (strahlerCalc (s.nodes.length + 1) r s).1) s).calculated) ∧
      (∀ r ∈ rs,
        r ∈ (rs.foldl (fun s r => (strahlerCalc (s.nodes.length + 1) r s).1) s).calculated) := by
  intro rs
  induction rs with
  | nil =>
      intro s ht hc _
      refine ⟨rfl, hc, fun i h => h, ?_⟩
      intro r hr
      simp at hr
  | cons r rs ih =>
      intro s ht hc hb
      have hrN : r < N := hb r (List.mem_cons_self _ _)
      have hlen : s.nodes.length = N := by
        have h2 := congrArg List.length ht.1
        simpa using h2
      obtain ⟨a1, a2, a3, a4, a5, a6, a7⟩ :=
        strahlerCalc_spec N (s.nodes.length + 1) r s ht hc (by omega) hrN
      have ht1 : TableStruct (strahlerCalc (s.nodes.length + 1) r s).1.nodes N :=
        TableStruct_of_strip a1 ht
      obtain ⟨i1, i2, i3, i4⟩ := ih (strahlerCalc (s.nodes.length + 1) r s).1 ht1 a5
        (fun x hx => hb x (List.mem_cons_of_mem _ hx))
      have hstep : (r :: rs).foldl (fun s r => (strahlerCalc (s.nodes.length + 1) r s).1) s =
          rs.foldl (fun s r => (strahlerCalc (s.nodes.length + 1) r s).1)
            (strahlerCalc (s.nodes.length + 1) r s).1 := rfl
      rw [hstep]
      refine ⟨i1.trans a1, i2, ?_, ?_⟩
      · intro i hi
        exact i3 i (a2 i hi)
      · intro x hx
        rcases List.mem_cons.mp hx with hx | hx
        · rw [hx]
          exact i3 r a6
        · exact i4 x hx

/-- The whole Strahler pass: structure preserved, memoization invariant
established, every root calculated. -/
theorem strahlerRun_spec (nodes : List BranchNode) (roots : List ℕ) (N : ℕ)
    (ht : TableStruct nodes N) (hr : ∀ r ∈ roots, r < N) :
    (strahlerRun nodes roots).nodes.map stripOrder = nodes.map stripOrder ∧
    calcClosed (strahlerRun nodes roots).nodes (strahlerRun nodes roots).calculated ∧
    ∀ r ∈ roots, r ∈ (strahlerRun nodes roots).calculated := by
  have h := strahlerRun_fold N roots ⟨nodes, []⟩ ht (by intro i hi; simp at hi) hr
  exact ⟨h.1, h.2.1, h.2.2.2⟩

/-- Reachability from the roots along children links. -/
inductive ReachB (nodes : List BranchNode) (roots : List ℕ) : ℕ → Prop where
  | root (r : ℕ) (h : r ∈ roots) : ReachB nodes roots r
  | child (i c : ℕ) (n : BranchNode) (hi : ReachB nodes roots i) (hn : n ∈ nodes)
      (hid : n.id = i) (hc : c ∈ n.children) : ReachB nodes roots c

theorem reach_mem_calculated {nodes : List BranchNode} {roots : List ℕ}
    {calced : List ℕ} {N : ℕ}
    (hids : nodes.map (fun n => n.id) = List.range N)
    (hclosed : calcClosed nodes calced)
    (hroots : ∀ r ∈ roots, r ∈ calced) :
    ∀ i, ReachB nodes roots i → i ∈ calced := by
  have hnodup : (nodes.map (fun n => n.id)).Nodup := by
    rw [hids]
    exact List.nodup_range N
  intro i h
  induction h with
  | root r hr => exact hroots r hr
  | child i c n hi hn hid hc ih =>
      obtain ⟨m, hm, hmid, _, hmc⟩ := hclosed i ih
      have hmn : m = n := List.inj_on_of_nodup_map hnodup hm hn (by rw [hmid, hid])
      exact hmc c (by rw [hmn]; exact hc)

/-- On a table with the memoization invariant whose roots are calculated,
every root-reachable node satisfies the Strahler equation. -/
theorem strahler_table_ok {nodes : List BranchNode} {roots : List ℕ}
    {calced : List ℕ} {N : ℕ}
    (hids : nodes.map (fun n => n.id) = List.range N)
    (hclosed : calcClosed nodes calced)
    (hroots : ∀ r ∈ roots, r ∈ calced) :
    ∀ n ∈ nodes, ReachB nodes roots n.id → StrahlerEqAt nodes n := by
  have hnodup : (nodes.map (fun n => n.id)).Nodup := by
    rw [hids]
    exact List.nodup_range N
  intro n hn hreach
  have hmem := reach_mem_calculated hids hclosed hroots n.id hreach
  obtain ⟨m, hm, hmid, hmeq, _⟩ := hclosed n.id hmem
  have hmn : m = n := List.inj_on_of_nodup_map hnodup hm hn hmid
  rw [← hmn]
  exact hmeq

/-- Everything the Strahler equation reads off a node. -/
def proj3 (n : BranchNode) : ℕ × List ℕ × ℕ := (n.id, n.children, n.order)

theorem getNode_proj3 :
    ∀ {l l' : List BranchNode},
      l'.map proj3 = l.map proj3 → ∀ c : ℕ,
      (getNode l' c).map (·.order) = (getNode l c).map (·.order) := by
  intro l
  induction l with
  | nil =>
      intro l' h c
      have hnil : l' = [] := List.map_eq_nil.mp (by rw [h]; rfl)
      rw [hnil]
  | cons x xs ih =>
      intro l' h c
      cases l' with
      | nil => simp at h
      | cons y ys =>
          simp only [List.map_cons, List.cons.injEq] at h
          obtain ⟨h1, h2⟩ := h
          have hyx : y.id = x.id := by
            have h3 := congrArg Prod.fst h1
            exact h3
          have hord : y.order = x.order := by
            have h3 := congrArg (fun t : ℕ × List ℕ × ℕ => t.2.2) h1
            exact h3
          unfold getNode
          by_cases hbx : (x.id == c) = true
          · rw [List.find?_cons_of_pos ys (show (fun n : BranchNode => n.id == c) y = true by
                show (y.id == c) = true
                rw [hyx]
                exact hbx),
              List.find?_cons_of_pos xs (show (fun n : BranchNode => n.id == c) x = true
                from hbx)]
            show some y.order = some x.order
            rw [hord]
          · rw [List.find?_cons_of_neg ys (show ¬ (fun n : BranchNode => n.id == c) y = true by
                show ¬ (y.id == c) = true
                rw [hyx]
                exact hbx),
              List.find?_cons_of_neg xs (show ¬ (fun n : BranchNode => n.id == c) x = true
                from hbx)]
            exact ih h2 c

theorem ordAt_proj3 {l l' : List BranchNode}
    (h : l'.map proj3 = l.map proj3) (c : ℕ) : ordAt l' c = ordAt l c := by
  unfold ordAt
  rw [getNode_proj3 h c]

theorem ReachB_of_proj3 {l l' : List BranchNode} {roots : List ℕ}
    (h : l'.map proj3 = l.map proj3) :
    ∀ i, ReachB l roots i → ReachB l' roots i := by
  intro i hr
  induction hr with
  | root r hrr => exact ReachB.root r hrr
  | child i c n hi hn hid hc ih =>
      obtain ⟨y, hy, hye⟩ := mem_map_proj proj3 proj3 h.symm n hn
      have hyid : y.id = n.id := by
        have h3 := congrArg Prod.fst hye
        exact h3
      have hych : y.children = n.children := by
        have h3 := congrArg (fun t : ℕ × List ℕ × ℕ => t.2.1) hye
        exact h3
      exact ReachB.child i c y ih hy (by rw [hyid, hid]) (by rw [hych]; exact hc)

/-- The Strahler property transports across any pass that keeps ids,
children and orders (the thickness passes). -/
theorem strahler_transport {l l' : List BranchNode} {roots : List ℕ} {N : ℕ}
    (hproj : l'.map proj3 = l.map proj3)
    (hids : l.map (fun n => n.id) = List.range N)
    (hok : ∀ n ∈ l, ReachB l roots n.id → StrahlerEqAt l n) :
    ∀ n ∈ l', ReachB l' roots n.id → StrahlerEqAt l' n := by
  intro n hn hreach
  obtain ⟨y, hy, hye⟩ := mem_map_proj proj3 proj3 hproj n hn
  have hid : y.id = n.id := by
    have h3 := congrArg Prod.fst hye
    exact h3
  have hch : y.children = n.children := by
    have h3 := congrArg (fun t : ℕ × List ℕ × ℕ => t.2.1) hye
    exact h3
  have hord : y.order = n.order := by
    have h3 := congrArg (fun t : ℕ × List ℕ × ℕ => t.2.2) hye
    exact h3
  have hreach2 : ReachB l roots y.id := by
    rw [hid]
    exact ReachB_of_proj3 hproj.symm n.id hreach
  have hyeq := hok y hy hreach2
  unfold StrahlerEqAt at hyeq ⊢
  by_cases he : n.children.isEmpty = true
  · rw [if_pos he]
    rw [if_pos (by rw [hch]; exact he)] at hyeq
    rw [← hord]
    exact hyeq
  · rw [if_neg he]
    rw [if_neg (by rw [hch]; exact he)] at hyeq
    have hmap : n.children.map (ordAt l') = n.children.map (ordAt l) := by
      apply List.map_congr_left
      intro c _
      exact ordAt_proj3 hproj c
    rw [hmap, ← hch, ← hord]
    exact hyeq

/-- The Strahler pass itself delivers the equation at every
root-reachable node of its output table. -/
theorem strahlerPass_reachable_ok (nodes : List BranchNode) (roots : List ℕ)
    (N : ℕ) (ht : TableStruct nodes N) (hr : ∀ r ∈ roots, r < N) :
    ∀ n ∈ (strahlerRun nodes roots).nodes,
      ReachB (strahlerRun nodes roots).nodes roots n.id →
      StrahlerEqAt (strahlerRun nodes roots).nodes n := by
  obtain ⟨hstrip, hclosed, hcalc⟩ := strahlerRun_spec nodes roots N ht hr
  have ht2 : TableStruct (strahlerRun nodes roots).nodes N :=
    TableStruct_of_strip hstrip ht
  exact strahler_table_ok ht2.1 hclosed hcalc

theorem turtleStep_nextId_ge (P : LSystemParameters) (O : MathOracle) (c : Char)
    (param : Option ℚ) (s : TIState) (h : 1 ≤ s.nextId) :
    1 ≤ (turtleStep P O c param s).nextId := by
  rcases turtleStep_cases P O c param s with h1 | h1 | ⟨t, _, h1⟩ |
    ⟨pos, hd, w, csl, ridx, nid, _, h1⟩
  · cases hnid : s.st.nodeId with
    | none =>
        obtain ⟨pos, bnd, attrs, he⟩ := stepForwardDraw_none param s hnid
        rw [h1, he]
        show 1 ≤ s.nextId + 1
        omega
    | some pid =>
        obtain ⟨pos, bnd, attrs, he⟩ := stepForwardDraw_some param s pid hnid
        rw [h1, he]
        show 1 ≤ s.nextId + 1
        omega
  · rw [h1]
    exact h
  · rw [h1]
    exact h
  · rw [h1]
    exact h

theorem interpretLoop_nextId_ge (P : LSystemParameters) (O : MathOracle)
    (input : List Char) (startPos : Vec2) :
    1 ≤ (interpretLoop P O input (initTIState P startPos)).nextId :=
  interpretLoopF_preserve P O (Q := fun t => 1 ≤ t.nextId)
    (fun c p t h => turtleStep_nextId_ge P O c p t h)
    input.length input _ (le_refl 1)

/-- The turtle's thickness rescale keeps ids, children and orders. -/
theorem interpret_nodes_proj3 (P : LSystemParameters) (O : MathOracle)
    (input : List Char) (startPos : Vec2) :
    (interpret P O input startPos).nodes.map proj3 =
      (strahlerRun (interpretLoop P O input (initTIState P startPos)).nodes
        (interpretLoop P O input (initTIState P startPos)).roots).nodes.map proj3 := by
  show (updateThicknessLS P _).map proj3 = _
  simp only [updateThicknessLS]
  rw [List.map_map]
  apply List.map_congr_left
  intro n _
  rfl

/-- Every root-reachable node of a turtle graph satisfies the Strahler
equation. -/
theorem interpret_strahler (P : LSystemParameters) (O : MathOracle)
    (input : List Char) (startPos : Vec2) :
    ∀ n ∈ (interpret P O input startPos).nodes,
      ReachB (interpret P O input startPos).nodes
        (interpret P O input startPos).roots n.id →
      StrahlerEqAt (interpret P O input startPos).nodes n := by
  obtain ⟨hids, _, _, hch, _, _, _⟩ := interpretLoop_TInv P O input startPos
  have ht : TableStruct (interpretLoop P O input (initTIState P startPos)).nodes
      (interpretLoop P O input (initTIState P startPos)).nextId := ⟨hids, hch⟩
  have hne := interpretLoop_nextId_ge P O input startPos
  have hroots : ∀ r ∈ (interpretLoop P O input (initTIState P startPos)).roots,
      r < (interpretLoop P O input (initTIState P startPos)).nextId := by
    rw [interpretLoop_roots]
    intro r hr
    have : r = 0 := by simpa [initTIState] using hr
    omega
  have hcore := strahlerPass_reachable_ok
    (interpretLoop P O input (initTIState P startPos)).nodes
    (interpretLoop P O input (initTIState P startPos)).roots
    (interpretLoop P O input (initTIState P startPos)).nextId ht hroots
  have htR : TableStruct
      (strahlerRun (interpretLoop P O input (initTIState P startPos)).nodes
        (interpretLoop P O input (initTIState P startPos)).roots).nodes
      (interpretLoop P O input (initTIState P startPos)).nextId :=
    TableStruct_of_strip (strahlerRun_strip _ _) ht
  exact strahler_transport (interpret_nodes_proj3 P O input startPos) htR.1 hcore

/-- `buildGraph`'s internal branch-node conversion (the `branchNodes`
local of the source). -/
def bgNodes (s : SCState) : List BranchNode :=
  s.nodes.map (fun n =>
    let depth := calcDepth s.nodes (s.nodes.length + 1) n.id
    ({ id := n.id, position := n.position, parent := n.parent, children := n.children,
       depth := depth, order := 0,
       attributes := { thickness := 1, color := min 1 ((depth : ℚ) * (1 / 10)),
                       age := 0 } } : BranchNode))

/-- `buildGraph`'s roots: the parentless nodes in table order. -/
def bgRoots (s : SCState) : List ℕ :=
  (s.nodes.filter (fun n => n.parent == none)).map (fun n => n.id)

theorem updateThickness_proj3 (mode : ThicknessMode) (nodes : List BranchNode) :
    (updateThickness mode nodes).map proj3 = nodes.map proj3 := by
  cases mode <;>
    · simp only [updateThickness]
      rw [List.map_map]
      apply List.map_congr_left
      intro n _
      rfl

theorem buildGraph_nodes_proj3 (cfg : ColonizationConfig) (s : SCState) :
    (buildGraph cfg s).nodes.map proj3 =
      (strahlerRun (bgNodes s) (bgRoots s)).nodes.map proj3 := by
  show (updateThickness cfg.thicknessMode
      (strahlerRun (bgNodes s) (bgRoots s)).nodes).map proj3 =
    (strahlerRun (bgNodes s) (bgRoots s)).nodes.map proj3
  exact updateThickness_proj3 _ _

theorem bgNodes_TableStruct (s : SCState) (h : SCInv s) :
    TableStruct (bgNodes s) s.nextId := by
  obtain ⟨hids, _, hchild, _⟩ := h
  constructor
  · unfold bgNodes
    rw [List.map_map, ← hids]
    apply List.map_congr_left
    intro n _
    rfl
  · intro b hb c hc
    obtain ⟨n, hn, he⟩ := List.mem_map.mp hb
    rw [← he] at hc ⊢
    exact hchild n hn c hc

theorem bgRoots_lt (s : SCState) (h : SCInv s) :
    ∀ r ∈ bgRoots s, r < s.nextId := by
  intro r hr
  obtain ⟨n, hn, he⟩ := List.mem_map.mp hr
  have hmem := (List.mem_filter.mp hn).1
  have := ifresh_of_ids h.1 n hmem
  omega

/-- Every root-reachable node of a colonization graph satisfies the
Strahler equation. -/
theorem buildGraph_strahler (cfg : ColonizationConfig) (s : SCState) (h : SCInv s) :
    ∀ n ∈ (buildGraph cfg s).nodes,
      ReachB (buildGraph cfg s).nodes (buildGraph cfg s).roots n.id →
      StrahlerEqAt (buildGraph cfg s).nodes n := by
  have ht := bgNodes_TableStruct s h
  have hcore := strahlerPass_reachable_ok (bgNodes s) (bgRoots s) s.nextId ht
    (bgRoots_lt s h)
  have htR : TableStruct (strahlerRun (bgNodes s) (bgRoots s)).nodes s.nextId :=
    TableStruct_of_strip (strahlerRun_strip _ _) ht
  exact strahler_transport (buildGraph_nodes_proj3 cfg s) htR.1 hcore

/-- In a colonization graph, every node is reachable from the roots:
parent ids strictly decrease, terminating at a parentless node, and the
roots list holds exactly the parentless nodes. -/
theorem buildGraph_all_reachable (cfg : ColonizationConfig) (s : SCState)
    (h : SCInv s) :
    ∀ n ∈ (buildGraph cfg s).nodes,
      ReachB (buildGraph cfg s).nodes (buildGraph cfg s).roots n.id := by
  obtain ⟨hids, hlink, hchild, hpar⟩ := h
  have hproj := buildGraph_links_proj cfg s
  suffices hs : ∀ k, ∀ n ∈ (buildGraph cfg s).nodes, n.id = k →
      ReachB (buildGraph cfg s).nodes (buildGraph cfg s).roots k by
    intro n hn
    exact hs n.id n hn rfl
  intro k
  induction k using Nat.strong_induction_on with
  | _ k ih =>
      intro n hn hk
      obtain ⟨y, hy, hye⟩ := mem_map_proj _ _ hproj n hn
      have hidq : y.id = n.id := congrArg Prod.fst hye
      have hpq : y.parent = n.parent := congrArg (fun t => t.2.1) hye
      cases hp : y.parent with
      | none =>
          have hroot : n.id ∈ (buildGraph cfg s).roots := by
            show n.id ∈ (s.nodes.filter (fun n => n.parent == none)).map (fun n => n.id)
            refine List.mem_map.mpr ⟨y, List.mem_filter.mpr ⟨hy, by rw [hp]; rfl⟩, ?_⟩
            rw [hidq]
          rw [← hk]
          exact ReachB.root n.id hroot
      | some pid =>
          obtain ⟨q, hq, hqid, hqc⟩ := hlink y hy pid hp
          have hpidlt : pid < n.id := by
            have := hpar y hy pid hp
            omega
          obtain ⟨b, hb, hbe⟩ := mem_map_proj _ _ hproj.symm q hq
          have hbid : b.id = q.id := congrArg Prod.fst hbe
          have hbch : b.children = q.children := congrArg (fun t => t.2.2) hbe
          have hrb : ReachB (buildGraph cfg s).nodes (buildGraph cfg s).roots pid :=
            ih pid (by omega) b hb (by rw [hbid, hqid])
          rw [← hk]
          refine ReachB.child pid n.id b hrb hb (by rw [hbid, hqid]) ?_
          rw [hbch, ← hidq]
          exact hqc

def cfgW : ColonizationConfig := ⟨⟨0, 0, 0, 0, none⟩, [⟨0, 0⟩], .constant⟩

/-- **C3** (corrected). After the Strahler pass, the claimed order
equations — leaves have order 1; an internal node's order is the maximum
child order, plus one exactly when at least two children attain it — hold
for every node *reachable from the roots*: in colonization graphs that is
every node, while in turtle graphs an orphan node spawned by F/G right
after an f/g move (which nulls the cursor) is never visited and keeps
order 0, so the original every-node claim fails there. -/
theorem c3_strahler_orders :
    (∀ (P : LSystemParameters) (O : MathOracle) (input : List Char) (startPos : Vec2),
       ∀ n ∈ (interpret P O input startPos).nodes,
         ReachB (interpret P O input startPos).nodes
           (interpret P O input startPos).roots n.id →
         StrahlerEqAt (interpret P O input startPos).nodes n) ∧
    (∀ (cfg : ColonizationConfig) (O : MathOracle) (atts : List Attractor),
       ∀ n ∈ (runSC cfg O atts).1.nodes,
         StrahlerEqAt (runSC cfg O atts).1.nodes n) := by
  constructor
  · exact interpret_strahler
  · intro cfg O atts n hn
    have hinv : SCInv (runAux cfg O cfg.parameters.maxIterations 0
        (initSCState cfg.seeds atts)) :=
      (runAux_SCInv_reports cfg O cfg.parameters.maxIterations 0
        (initSCState cfg.seeds atts) (initSCState_SCInv cfg.seeds atts)
        (by intro r hr; simp [initSCState] at hr)).1
    exact buildGraph_strahler cfg _ hinv n hn
      (buildGraph_all_reachable cfg _ hinv n hn)

theorem c3_witness :
    StrahlerEqAt (runSC cfgW O0 []).1.nodes
      ((runSC cfgW O0 []).1.nodes.head
        (List.ne_nil_of_length_pos (by decide))) :=
  c3_strahler_orders.2 cfgW O0 [] _ (List.head_mem _)

/-- The original claim quantifies over *every* node: refuted by the
turtle input "fF", whose F-node is created with a detached cursor, left
parentless, unreachable from the root list, and keeps order 0 despite
having no children. -/
theorem c3_counterexample :
    ¬ (∀ n ∈ (interpret P0 O0 (['f', 'F'] : List Char) ⟨0, 0⟩).nodes,
        n.children = [] → n.order = 1) := by
  decide

end Spec2Proof
